import Mathlib

/-!
Verification development for the SEM (Structured Event Memory) segmenter
in `sem/sem.py`.

The embedding is shallow:

* numpy float arrays become Lean lists over a linear ordered field
  (the counts / prior layer is generic so that concrete witnesses can be
  evaluated over `ℚ`; the streaming engine is instantiated at `ℝ`);
* `-inf` entries of log-domain arrays are represented by `⊥ : WithBot ℝ`
  (`WithBot` addition agrees with IEEE addition on the values that occur:
  `-inf + x = -inf`, and `+inf` never arises in the modelled code paths);
* `np.log` becomes `rlog` (`0 ↦ ⊥`, matching `np.log 0 = -inf`; negative
  arguments never occur on the modelled reachable paths);
* `scipy.special.logsumexp` becomes `lseW` (`-inf` entries contribute no
  support, an empty or all `-inf` input yields `-inf`);
* in-place numpy mutation becomes functional record update;
* numpy `IndexError` / failed `assert` statements become `none` / `.error`
  results of `Option` / `Except` valued functions.

Event models (`GRUEvent` etc.) are out of scope of the repository core and
are abstracted by a `ModelOps` record exposing exactly the operations the
core calls on them (`log_likelihood_f0`, `log_likelihood_next`,
`log_likelihood_sequence`, `update_f0`, `update`, `new_token`,
`predict_next`); log-likelihood results are finite reals, matching the
collaborator contract (`... -> logprob`).
-/

/-! ## Small list helpers shared by the embedding -/

/-- First index of the maximum of a list, numpy `argmax` tie-breaking
(lowest index wins).  Auxiliary accumulator form. -/
def argmaxAux {β : Type} [LinearOrder β] : β → ℕ → ℕ → List β → ℕ
  | _, bestIdx, _, [] => bestIdx
  | best, bestIdx, i, x :: xs =>
      if best < x then argmaxAux x i (i + 1) xs else argmaxAux best bestIdx (i + 1) xs

/-- `np.argmax`: index of the first occurrence of the maximal element.
numpy raises on an empty array; the (unreachable) empty case returns `0`
and all uses in the embedding guard emptiness explicitly. -/
def listArgmax {β : Type} [LinearOrder β] : List β → ℕ
  | [] => 0
  | x :: xs => argmaxAux x 0 1 xs

/-- `np.nonzero(l)[0]` for a 1-D array: the (sorted) list of indices whose
entry is nonzero. -/
def nonzeroIdx {α : Type} [Zero α] [DecidableEq α] (l : List α) : List ℕ :=
  (List.range l.length).filter (fun i => l.getD i 0 ≠ 0)

/-- `len(np.nonzero(c)[0])`: the number of nonzero entries of `c`. -/
def countNonzero {α : Type} [Zero α] [DecidableEq α] (c : List α) : ℕ :=
  (c.filter (fun x => x ≠ 0)).length

/-- `l[i] += v` on a numpy array: in bounds it returns the updated copy,
out of bounds numpy raises `IndexError`, modelled by `none`. -/
def listAddAt {α : Type} [Add α] (l : List α) (i : ℕ) (v : α) : Option (List α) :=
  if h : i < l.length then some (l.set i (l.get ⟨i, h⟩ + v)) else none

/-! ## ClusterState: `SEM._update_state`

`self.d` (scene dimensionality, `None` before first use), `self.k`
(number of event types), `self.c` (running sCRP counts). -/

structure ClusterState (α : Type) where
  d : Option ℕ
  k : ℕ
  c : List α

/-- Failure modes of `SEM._update_state`: the `assert self.d == d`
dimension check, and the final `assert self.c.size == self.k`
internal-consistency check. -/
inductive UpdateError where
  | dimensionMismatch : UpdateError
  | sizeInvariant : UpdateError
deriving DecidableEq

/-- `SEM._update_state(x, k)` where `x` has shape `(n, d)` and `k` is the
optional max-cluster hint (`None ↦ n`).  Faithful to the source order:
dimension check first, then `self.k = max(self.k, k)`, then zero-pad
`self.c` to length `self.k`, then `assert self.c.size == self.k`. -/
def update_state {α : Type} [Zero α] (s : ClusterState α) (n dObs : ℕ) (kHint : Option ℕ) :
    Except UpdateError (ClusterState α) :=
  match s.d with
  | some d0 =>
      if d0 = dObs then
        let k1 := max s.k (kHint.getD n)
        let c1 := if s.c.length < k1 then s.c ++ List.replicate (k1 - s.c.length) 0 else s.c
        if c1.length = k1 then Except.ok ⟨some dObs, k1, c1⟩ else Except.error .sizeInvariant
      else Except.error .dimensionMismatch
  | none =>
      let k1 := max s.k (kHint.getD n)
      let c1 := if s.c.length < k1 then s.c ++ List.replicate (k1 - s.c.length) 0 else s.c
      if c1.length = k1 then Except.ok ⟨some dObs, k1, c1⟩ else Except.error .sizeInvariant

/-! ## `SEM._calculate_unnormed_sCRP` -/

/-- `SEM._calculate_unnormed_sCRP(prev_cluster)` over counts `c` with
`self.k = k`: copy the counts, let `idx` be the number of visited
clusters, add `alfa` at `prior[idx]` when `idx <= self.k` (numpy raises
`IndexError` when `idx` is out of bounds, hence the `Option`), and add
the stickiness `lmda` at the previous cluster when there is one. -/
def calculate_unnormed_sCRP {α : Type} [Zero α] [Add α] [DecidableEq α]
    (c : List α) (k : ℕ) (alfa lmda : α) (prevCluster : Option ℕ) : Option (List α) :=
  let prior := c
  let idx := countNonzero c
  match (if idx ≤ k then listAddAt prior idx alfa else some prior) with
  | none => none
  | some prior1 =>
      match prevCluster with
      | none => some prior1
      | some p => listAddAt prior1 p lmda

/-! ### Basic lemmas about the helpers -/

theorem listAddAt_some {α : Type} [Add α] {l l' : List α} {i : ℕ} {v : α}
    (h : listAddAt l i v = some l') :
    ∃ hi : i < l.length, l' = l.set i (l.get ⟨i, hi⟩ + v) := by
  unfold listAddAt at h
  split at h
  · next hi =>
    refine ⟨hi, ?_⟩
    cases h
    rfl
  · exact absurd h (by simp)

theorem listAddAt_length {α : Type} [Add α] {l l' : List α} {i : ℕ} {v : α}
    (h : listAddAt l i v = some l') : l'.length = l.length := by
  unfold listAddAt at h
  split at h
  · cases h; simp
  · exact absurd h (by simp)

theorem listAddAt_isSome {α : Type} [Add α] {l : List α} {i : ℕ} {v : α}
    (h : i < l.length) : listAddAt l i v = some (l.set i (l.get ⟨i, h⟩ + v)) := by
  unfold listAddAt
  rw [dif_pos h]

theorem listAddAt_getD {α : Type} [AddZeroClass α] [Preorder α]
    [CovariantClass α α (· + ·) (· ≤ ·)] [CovariantClass α α (Function.swap (· + ·)) (· ≤ ·)]
    {l l' : List α} {i : ℕ} {v : α}
    (h : listAddAt l i v = some l') (hv : 0 ≤ v) (j : ℕ) :
    l.getD j 0 ≤ l'.getD j 0 := by
  unfold listAddAt at h
  split at h
  · next hi =>
    cases h
    by_cases hj : j = i
    · subst hj
      rw [List.getD_eq_getElem _ _ hi, List.getD_eq_getElem, List.getElem_set_self]
      · calc l[j] = l[j] + 0 := (add_zero _).symm
          _ ≤ l[j] + v := by exact add_le_add_left hv _
          _ = l.get ⟨j, hi⟩ + v := rfl
      · simpa using hi
    · by_cases hjl : j < l.length
      · rw [List.getD_eq_getElem _ _ hjl, List.getD_eq_getElem, List.getElem_set_ne]
        · exact fun hc => hj hc.symm
        · simpa using hjl
      · rw [List.getD_eq_default _ _ (Nat.le_of_not_lt hjl),
          List.getD_eq_default]
        simpa using Nat.le_of_not_lt hjl
  · exact absurd h (by simp)

theorem countNonzero_le_length {α : Type} [Zero α] [DecidableEq α] (c : List α) :
    countNonzero c ≤ c.length :=
  List.length_filter_le _ _

theorem argmaxAux_range {β : Type} [LinearOrder β] (l : List β) :
    ∀ (best : β) (bi i : ℕ),
      argmaxAux best bi i l = bi ∨
        (i ≤ argmaxAux best bi i l ∧ argmaxAux best bi i l < i + l.length) := by
  induction l with
  | nil => intro best bi i; exact Or.inl rfl
  | cons x xs ih =>
      intro best bi i
      simp only [argmaxAux]
      split
      · rcases ih x i (i + 1) with h | ⟨h1, h2⟩
        · right
          rw [h, List.length_cons]
          omega
        · right
          rw [List.length_cons]
          omega
      · rcases ih best bi (i + 1) with h | ⟨h1, h2⟩
        · exact Or.inl h
        · right
          rw [List.length_cons]
          omega

/-- `np.argmax` over a nonempty array returns an in-bounds index. -/
theorem listArgmax_lt_length {β : Type} [LinearOrder β] (l : List β) (hl : l ≠ []) :
    listArgmax l < l.length := by
  cases l with
  | nil => exact absurd rfl hl
  | cons x xs =>
      simp only [listArgmax]
      rcases argmaxAux_range xs x 0 1 with h | ⟨h1, h2⟩
      · rw [h, List.length_cons]
        omega
      · rw [List.length_cons]
        omega

theorem listArgmax_lt_of_length_eq {β : Type} [LinearOrder β] {l : List β} {n : ℕ}
    (h : l.length = n) (hn : ¬n = 0) : listArgmax l < n := by
  subst h
  exact listArgmax_lt_length l (fun hc => hn (by rw [hc]; rfl))

/-- Filtering `range n` by a predicate that holds exactly below `m ≤ n`
yields `range m`. -/
theorem filter_range_below (p : ℕ → Bool) (n m : ℕ) (hm : m ≤ n)
    (hp : ∀ i, p i = true ↔ i < m) :
    (List.range n).filter p = List.range m := by
  induction n with
  | zero =>
      have hm0 : m = 0 := Nat.le_zero.mp hm
      subst hm0
      rfl
  | succ n ih =>
      rcases Nat.lt_or_ge n m with hlt | hge
      · have hmeq : m = n + 1 := Nat.le_antisymm hm hlt
        subst hmeq
        exact List.filter_eq_self.mpr (fun a ha => (hp a).mpr (List.mem_range.mp ha))
      · have hpn : p n = false := by
          cases hpn2 : p n with
          | false => rfl
          | true => exact absurd ((hp n).mp hpn2) (by omega)
        rw [List.range_succ, List.filter_append, ih hge]
        simp [List.filter_cons, hpn]

/-- Counting the nonzero entries agrees with the length of the nonzero
index list. -/
theorem countNonzero_eq_nonzeroIdx_length {α : Type} [Zero α] [DecidableEq α] (c : List α) :
    countNonzero c = (nonzeroIdx c).length := by
  induction c with
  | nil => rfl
  | cons a t ih =>
      have hcomp : ((fun i => decide ((a :: t).getD i 0 ≠ 0)) ∘ Nat.succ) =
          (fun i => decide (t.getD i 0 ≠ 0)) := by
        funext i
        simp only [Function.comp_apply, List.getD_cons_succ]
      simp only [countNonzero, nonzeroIdx] at ih ⊢
      rw [List.filter_cons, List.length_cons, List.range_succ_eq_map, List.filter_cons,
        List.filter_map, hcomp, List.getD_cons_zero]
      by_cases ha : (decide (a ≠ 0) : Bool) = true
      · rw [if_pos ha, if_pos ha, List.length_cons, List.length_cons, List.length_map, ih]
      · rw [if_neg ha, if_neg ha, List.length_map, ih]

theorem getD_set_self {α : Type} (l : List α) (i : ℕ) (v d : α) (hi : i < l.length) :
    (l.set i v).getD i d = v := by
  rw [List.getD_eq_getElem _ _ (by rw [List.length_set]; exact hi), List.getElem_set_self]

theorem getD_set_ne {α : Type} (l : List α) (j i : ℕ) (v d : α) (hij : i ≠ j) :
    (l.set j v).getD i d = l.getD i d := by
  by_cases hi : i < l.length
  · rw [List.getD_eq_getElem _ _ (by rw [List.length_set]; exact hi),
      List.getD_eq_getElem _ _ hi, List.getElem_set_ne (fun hc => hij hc.symm)]
  · rw [List.getD_eq_default _ _ (by rw [List.length_set]; exact Nat.le_of_not_lt hi),
      List.getD_eq_default _ _ (Nat.le_of_not_lt hi)]

theorem getD_append_left {α : Type} (l1 l2 : List α) (i : ℕ) (d : α) (hi : i < l1.length) :
    (l1 ++ l2).getD i d = l1.getD i d := by
  rw [List.getD_eq_getElem _ _ (by rw [List.length_append]; omega),
    List.getD_eq_getElem _ _ hi, List.getElem_append_left hi]

/-- Zero-padding a counts vector (as `_update_state` does) never changes a
read. -/
theorem getD_append_replicate_zero (c : List ℝ) (j i : ℕ) :
    (c ++ List.replicate j (0 : ℝ)).getD i 0 = c.getD i 0 := by
  by_cases hi : i < c.length
  · exact getD_append_left c _ i 0 hi
  · rw [List.getD_eq_default _ _ (Nat.le_of_not_lt hi)]
    by_cases hi2 : i < c.length + j
    · rw [List.getD_eq_getElem _ _
          (by rw [List.length_append, List.length_replicate]; exact hi2),
        List.getElem_append_right (Nat.le_of_not_lt hi), List.getElem_replicate]
    · rw [List.getD_eq_default _ _
        (by rw [List.length_append, List.length_replicate]; omega)]

/-- Packaging of the sCRP prior's entry description: nonnegativity, the
previous type's shifted entry, and the front-dense active set. -/
theorem sCRP_pack {c prior : List ℝ} {alfa lmda : ℝ} {pc : Option ℕ} {mz : ℕ}
    (hnn : ∀ i, 0 ≤ c.getD i 0)
    (hfd : ∀ i, (c.getD i 0 ≠ 0 ↔ i < mz))
    (halfa : 0 ≤ alfa) (hlmda : 0 ≤ lmda)
    (hplen : prior.length = c.length)
    (hmzlt : mz < c.length)
    (hpcmz : ∀ q, pc = some q → q < mz ∧ 0 < c.getD q 0)
    (hPP : ∀ i, prior.getD i 0 =
      (if i = mz then alfa else c.getD i 0) + (if pc = some i then lmda else 0)) :
    (∀ i, 0 ≤ prior.getD i 0) ∧
      (∀ q, pc = some q → q < mz ∧ prior.getD q 0 - lmda = c.getD q 0) ∧
      ∃ m1, nonzeroIdx prior = List.range m1 ∧ mz ≤ m1 ∧ m1 ≤ mz + 1 := by
  have hsticky : ∀ i, (0 : ℝ) ≤ if pc = some i then lmda else 0 := by
    intro i
    split
    · exact hlmda
    · exact le_refl 0
  have hnnP : ∀ i, 0 ≤ prior.getD i 0 := by
    intro i
    rw [hPP i]
    have h1 : (0 : ℝ) ≤ if i = mz then alfa else c.getD i 0 := by
      split
      · exact halfa
      · exact hnn i
    have h2 := hsticky i
    linarith
  have hshift : ∀ q, pc = some q → q < mz ∧ prior.getD q 0 - lmda = c.getD q 0 := by
    intro q hq
    obtain ⟨hqmz, -⟩ := hpcmz q hq
    refine ⟨hqmz, ?_⟩
    rw [hPP q, if_neg (Nat.ne_of_lt hqmz), if_pos hq]
    ring
  have hbelow : ∀ i, i < mz → prior.getD i 0 ≠ 0 := by
    intro i hlt
    rw [hPP i, if_neg (Nat.ne_of_lt hlt)]
    have hci : 0 < c.getD i 0 := lt_of_le_of_ne (hnn i) (Ne.symm ((hfd i).mpr hlt))
    exact ne_of_gt (add_pos_of_pos_of_nonneg hci (hsticky i))
  have habove : ∀ i, mz < i → prior.getD i 0 = 0 := by
    intro i hgt
    have hc0 : c.getD i 0 = 0 := by
      by_contra hcc
      exact absurd ((hfd i).mp hcc) (by omega)
    rw [hPP i, if_neg (by omega), hc0,
      if_neg (fun hc => absurd (hpcmz i hc).1 (by omega)), add_zero]
  have hatmz : prior.getD mz 0 = alfa := by
    rw [hPP mz, if_pos rfl,
      if_neg (fun hc => absurd (hpcmz mz hc).1 (lt_irrefl mz)), add_zero]
  refine ⟨hnnP, hshift, ?_⟩
  by_cases hA : alfa = 0
  · refine ⟨mz, ?_, le_refl mz, Nat.le_succ mz⟩
    simp only [nonzeroIdx]
    rw [hplen]
    refine filter_range_below _ _ _ (le_of_lt hmzlt) (fun i => ?_)
    rw [decide_eq_true_eq]
    constructor
    · intro hne
      by_contra hge
      rcases Nat.lt_or_ge mz i with hgt | hle
      · exact hne (habove i hgt)
      · have : i = mz := by omega
        subst this
        rw [hatmz, hA] at hne
        exact hne rfl
    · exact hbelow i
  · refine ⟨mz + 1, ?_, Nat.le_succ mz, le_refl (mz + 1)⟩
    simp only [nonzeroIdx]
    rw [hplen]
    refine filter_range_below _ _ _ hmzlt (fun i => ?_)
    rw [decide_eq_true_eq]
    constructor
    · intro hne
      by_contra hge
      exact hne (habove i (by omega))
    · intro hlt
      rcases Nat.lt_or_ge i mz with hlt2 | hge2
      · exact hbelow i hlt2
      · have : i = mz := by omega
        subst this
        rw [hatmz]
        exact hA

/-- Structure of the unnormed sCRP prior over front-dense counts of the
maintained length: the prior keeps the counts' length and nonnegativity,
the previous type's entry is exactly its count plus the stickiness, and
the active set (`np.nonzero`) is an initial segment extending the counts'
support by at most the new-cluster slot. -/
theorem sCRP_front_dense {c prior : List ℝ} {k : ℕ} {alfa lmda : ℝ} {pc : Option ℕ} {mz : ℕ}
    (hlen : c.length = k)
    (hnn : ∀ i, 0 ≤ c.getD i 0)
    (hfd : ∀ i, (c.getD i 0 ≠ 0 ↔ i < mz))
    (halfa : 0 ≤ alfa) (hlmda : 0 ≤ lmda)
    (hpv : ∀ q, pc = some q → 0 < c.getD q 0)
    (hcalc : calculate_unnormed_sCRP c k alfa lmda pc = some prior) :
    prior.length = c.length ∧ mz < c.length ∧
      (∀ i, 0 ≤ prior.getD i 0) ∧
      (∀ q, pc = some q → q < mz ∧ prior.getD q 0 - lmda = c.getD q 0) ∧
      ∃ m1, nonzeroIdx prior = List.range m1 ∧ mz ≤ m1 ∧ m1 ≤ mz + 1 := by
  have hmzlen : mz ≤ c.length := by
    by_contra hcon
    push_neg at hcon
    have h0 : c.getD c.length 0 = 0 := List.getD_eq_default _ _ (le_refl _)
    exact ((hfd c.length).mpr hcon) h0
  have hnzc : nonzeroIdx c = List.range mz := by
    simp only [nonzeroIdx]
    exact filter_range_below _ _ _ hmzlen
      (fun i => by rw [decide_eq_true_eq]; exact hfd i)
  have hcnt : countNonzero c = mz := by
    rw [countNonzero_eq_nonzeroIdx_length, hnzc, List.length_range]
  have hguard : countNonzero c ≤ k := by
    rw [hcnt, ← hlen]
    exact hmzlen
  simp only [calculate_unnormed_sCRP] at hcalc
  rw [if_pos hguard, hcnt] at hcalc
  cases haddA : listAddAt c mz alfa with
  | none =>
      rw [haddA] at hcalc
      exact Option.noConfusion hcalc
  | some prior1 =>
      rw [haddA] at hcalc
      obtain ⟨hmzlt, hp1eq⟩ := listAddAt_some haddA
      have hcmz : c.getD mz 0 = 0 := by
        by_contra hne
        exact absurd ((hfd mz).mp hne) (lt_irrefl mz)
      have hp1len : prior1.length = c.length := listAddAt_length haddA
      have hP1 : ∀ i, prior1.getD i 0 = if i = mz then alfa else c.getD i 0 := by
        intro i
        rw [hp1eq]
        by_cases hi : i = mz
        · subst hi
          rw [if_pos rfl, getD_set_self _ _ _ _ hmzlt, List.get_eq_getElem,
            ← List.getD_eq_getElem _ _ hmzlt, hcmz, zero_add]
        · rw [if_neg hi, getD_set_ne _ _ _ _ _ hi]
      cases pc with
      | none =>
          have hpe : prior1 = prior := Option.some_inj.mp hcalc
          subst hpe
          have hpcmz : ∀ q, (none : Option ℕ) = some q → q < mz ∧ 0 < c.getD q 0 :=
            fun q hq => Option.noConfusion hq
          have hPP : ∀ i, prior1.getD i 0 =
              (if i = mz then alfa else c.getD i 0) +
                (if (none : Option ℕ) = some i then lmda else 0) := by
            intro i
            rw [if_neg (fun hc => Option.noConfusion hc), add_zero]
            exact hP1 i
          obtain ⟨hnnP, hshift, hm1⟩ :=
            sCRP_pack hnn hfd halfa hlmda hp1len hmzlt hpcmz hPP
          exact ⟨hp1len, hmzlt, hnnP, hshift, hm1⟩
      | some q =>
          have hqpos : 0 < c.getD q 0 := hpv q rfl
          have hqmz : q < mz := (hfd q).mp (ne_of_gt hqpos)
          have hqne : q ≠ mz := Nat.ne_of_lt hqmz
          obtain ⟨hqlt, hpeq⟩ := listAddAt_some hcalc
          have hplen2 : prior.length = c.length :=
            (listAddAt_length hcalc).trans hp1len
          have hp1q : prior1.getD q 0 = c.getD q 0 := by
            rw [hP1 q, if_neg hqne]
          have hpcmz : ∀ q2, (some q : Option ℕ) = some q2 → q2 < mz ∧ 0 < c.getD q2 0 := by
            intro q2 hq2
            cases Option.some_inj.mp hq2
            exact ⟨hqmz, hqpos⟩
          have hPP : ∀ i, prior.getD i 0 =
              (if i = mz then alfa else c.getD i 0) +
                (if (some q : Option ℕ) = some i then lmda else 0) := by
            intro i
            by_cases hi : i = q
            · subst hi
              rw [hpeq, getD_set_self _ _ _ _ hqlt, List.get_eq_getElem,
                ← List.getD_eq_getElem _ _ hqlt, hp1q, if_neg hqne, if_pos rfl]
            · rw [hpeq, getD_set_ne _ _ _ _ _ hi, hP1 i,
                if_neg (fun hc => hi (Option.some_inj.mp hc).symm), add_zero]
          obtain ⟨hnnP, hshift, hm1⟩ :=
            sCRP_pack hnn hfd halfa hlmda hplen2 hmzlt hpcmz hPP
          exact ⟨hplen2, hmzlt, hnnP, hshift, hm1⟩


/-! ## Log-domain arithmetic

Log-domain float values: a finite real or `-inf` (`⊥`).  `+inf` and `nan`
never arise on the code paths modelled here (see the comments at the
places where numpy could produce them). -/

noncomputable section

/-- Transform out of log domain: `np.exp`, with `exp(-inf) = 0`. -/
def expv : WithBot ℝ → ℝ
  | ⊥ => 0
  | (x : ℝ) => Real.exp x

/-- Sum of the exponentials of a log-domain vector. -/
def sumExp (l : List (WithBot ℝ)) : ℝ := (l.map expv).sum

/-- `scipy.special.logsumexp`: `-inf` entries contribute no support, and
an input with no support at all (empty, or all `-inf`) yields `-inf`. -/
def lseW (l : List (WithBot ℝ)) : WithBot ℝ :=
  if sumExp l ≤ 0 then ⊥ else (Real.log (sumExp l) : ℝ)

/-- Log-domain subtraction.  `finite - finite` and `-inf - finite` follow
IEEE; the remaining case (`x - (-inf)`, which IEEE maps to `+inf` or
`nan`) never occurs in the modelled code, because the subtrahend is always
a `logsumexp` whose input retains support; it is mapped to `⊥` here and no
theorem below relies on that corner. -/
def wsub : WithBot ℝ → WithBot ℝ → WithBot ℝ
  | (a : ℝ), (b : ℝ) => ((a - b : ℝ) : WithBot ℝ)
  | ⊥, (_ : ℝ) => ⊥
  | _, ⊥ => ⊥

/-- `np.log` on a nonnegative float: `log 0 = -inf`.  Negative arguments
(numpy `nan`) never occur on the modelled reachable paths; they are sent
to `⊥` as well. -/
def rlog (x : ℝ) : WithBot ℝ :=
  if x ≤ 0 then ⊥ else (Real.log x : ℝ)

theorem expv_nonneg (v : WithBot ℝ) : 0 ≤ expv v := by
  cases v with
  | bot => exact le_refl 0
  | coe x => exact le_of_lt (Real.exp_pos x)

theorem expv_coe (x : ℝ) : expv (x : WithBot ℝ) = Real.exp x := rfl

theorem expv_bot : expv ⊥ = 0 := rfl

theorem sumExp_nil : sumExp [] = 0 := rfl

theorem sumExp_cons (v : WithBot ℝ) (l : List (WithBot ℝ)) :
    sumExp (v :: l) = expv v + sumExp l := by
  simp [sumExp]

theorem sumExp_append (a b : List (WithBot ℝ)) :
    sumExp (a ++ b) = sumExp a + sumExp b := by
  simp [sumExp]

theorem sumExp_nonneg (l : List (WithBot ℝ)) : 0 ≤ sumExp l := by
  induction l with
  | nil => exact le_refl 0
  | cons v t ih =>
      rw [sumExp_cons]
      exact add_nonneg (expv_nonneg v) ih

theorem sumExp_map_const {β : Type} (L : List β) (x : ℝ) :
    sumExp (L.map fun _ => (x : WithBot ℝ)) = L.length * Real.exp x := by
  induction L with
  | nil => simp [sumExp]
  | cons h t ih =>
      rw [List.map_cons, sumExp_cons, expv_coe, ih, List.length_cons]
      push_cast
      ring

theorem lseW_of_pos {l : List (WithBot ℝ)} (h : 0 < sumExp l) :
    lseW l = ((Real.log (sumExp l) : ℝ) : WithBot ℝ) := by
  rw [lseW, if_neg (not_le_of_lt h)]

theorem wsub_coe_coe (a b : ℝ) : wsub (a : WithBot ℝ) (b : WithBot ℝ) = ((a - b : ℝ) : WithBot ℝ) := rfl

theorem wsub_bot_coe (b : ℝ) : wsub ⊥ (b : WithBot ℝ) = ⊥ := rfl

theorem rlog_of_pos {x : ℝ} (h : 0 < x) : rlog x = ((Real.log x : ℝ) : WithBot ℝ) := by
  rw [rlog, if_neg (not_le_of_lt h)]

/-- The boundary-probability shape: `exp (logsumexp A - logsumexp (A ++ [r]))`
is a probability whenever the combined list retains support. -/
theorem lse_ratio_bounds (A : List (WithBot ℝ)) (r : WithBot ℝ)
    (hB : 0 < sumExp (A ++ [r])) :
    0 ≤ expv (wsub (lseW A) (lseW (A ++ [r]))) ∧
      expv (wsub (lseW A) (lseW (A ++ [r]))) ≤ 1 := by
  have hAB : sumExp A ≤ sumExp (A ++ [r]) := by
    rw [sumExp_append]
    have : 0 ≤ sumExp [r] := sumExp_nonneg [r]
    linarith
  rw [lseW_of_pos hB]
  by_cases hA : sumExp A ≤ 0
  · rw [lseW, if_pos hA, wsub_bot_coe, expv_bot]
    exact ⟨le_refl 0, zero_le_one⟩
  · have hA' : 0 < sumExp A := lt_of_not_le hA
    rw [lseW, if_neg hA, wsub_coe_coe, expv_coe, Real.exp_sub, Real.exp_log hA',
      Real.exp_log hB]
    constructor
    · positivity
    · rw [div_le_one hB]
      exact hAB

/-! ## Abstract event models and SEM state

`GRUEvent` (the `f_class`) is an external collaborator; only the
operations the core invokes are modelled.  `fresh` is the model produced
by `self.f_class(self.d, **self.f_opts)` (backend sharing via
`init_model` / `set_model` only shares parameters at creation time, which
the single abstract `fresh` value captures). -/

structure ModelOps (Obs Model : Type) where
  fresh : Model
  log_likelihood_f0 : Model → Obs → ℝ
  log_likelihood_next : Model → Obs → Obs → ℝ
  log_likelihood_sequence : Model → List Obs → Obs → ℝ
  update_f0 : Model → Obs → Model
  update : Model → Obs → Obs → Model
  new_token : Model → Model
  predict_next : Model → Obs → Obs
  distObs : Obs → Obs → ℝ

/-- The `self.results` object as used by `update_single_event` /
`run_w_boundaries` (token mode): growing posterior and log matrices plus
the derived readouts. -/
structure TokenResults where
  post : List (List ℝ)
  log_like : List (List (WithBot ℝ))
  log_prior : List (List (WithBot ℝ))
  e_hat : List ℕ
  log_loss : List (WithBot ℝ)

/-- The mutable attributes of a `SEM` object. -/
structure SEMState (Obs Model : Type) where
  lmda : ℝ
  alfa : ℝ
  k : ℕ
  c : List ℝ
  d : Option ℕ
  event_models : ℕ → Option Model
  x_prev : Option Obs
  k_prev : Option ℕ
  results : Option TokenResults

/-- Model instantiation inside the per-step loops: every active type
without a model gets a fresh one (`if k0 not in self.event_models`). -/
def ensure_models {Obs Model : Type} (ops : ModelOps Obs Model)
    (models : ℕ → Option Model) (active : List ℕ) : ℕ → Option Model :=
  fun j => if j ∈ active then some ((models j).getD ops.fresh) else models j

/-! ## `SEM.run`: the streaming segmenter -/

/-- State threaded through the `run` loop: the SEM object plus the three
special restart variables, which are plain Python locals that persist
across loop iterations (initialized to `-inf`, `0`, `-inf`). -/
structure RunLoop (Obs Model : Type) where
  st : SEMState Obs Model
  lik_restart_event : WithBot ℝ
  restart_prob : WithBot ℝ
  repeat_prob : WithBot ℝ

/-- Per-step outputs of the `run` loop body: the MAP cluster, the
boundary flag, the decision quantities, and the rows written into the
result matrices at index `ii`. -/
structure RunStepOut where
  kWin : ℕ
  event_boundary : Bool
  restartP : WithBot ℝ
  repeatP : WithBot ℝ
  decisionPost : List (WithBot ℝ)
  log_boundary_probability : WithBot ℝ
  postRow : List ℝ
  logLikeRow : List (WithBot ℝ)
  logPriorRow : List (WithBot ℝ)
  pe : ℝ

/-- Lines 316-328 of `run`: `self.c[k] += 1` (`List.set` is a no-op out
of bounds; the winner index is below `len(self.c)` in every reachable
state), then the winning model's update — `new_token` plus `update_f0` on
a boundary, `update(x_prev, x_curr)` otherwise (with its
`assert self.x_prev is not None`) — then the rollover of
`x_prev`/`k_prev`.  `self.event_models[k]` is a dict access; the winner
always has a model in reachable states, so `getD fresh` is never the
default. -/
def runStepCommit {Obs Model : Type} (ops : ModelOps Obs Model) (L : RunLoop Obs Model)
    (models1 : ℕ → Option Model) (xCurr : Obs) (kWin : ℕ) (eb : Bool)
    (likR restartP repeatP : WithBot ℝ) : Option (RunLoop Obs Model) :=
  let c1 := L.st.c.set kWin (L.st.c.getD kWin 0 + 1)
  let mdl := (models1 kWin).getD ops.fresh
  if eb then
    some ⟨⟨L.st.lmda, L.st.alfa, L.st.k, c1, L.st.d,
      (fun j => if j = kWin then some (ops.update_f0 (ops.new_token mdl) xCurr) else models1 j),
      some xCurr, some kWin, L.st.results⟩, likR, restartP, repeatP⟩
  else
    match L.st.x_prev with
    | none => none
    | some xp =>
        some ⟨⟨L.st.lmda, L.st.alfa, L.st.k, c1, L.st.d,
          (fun j => if j = kWin then some (ops.update mdl xp xCurr) else models1 j),
          some xCurr, some kWin, L.st.results⟩, likR, restartP, repeatP⟩

/-- One iteration of the `run` loop (lines 222-328).  `isFirst` is the
`ii > 0` test.  Positional note: `lik` has length `len(active)` and is
written at cluster indices `k0 ∈ active`; in every reachable state
`active` is exactly `0..m-1` (counts are prefix-dense), where positions
and cluster indices coincide, which is how the embedding reads it.
Failure (`none`) models the numpy `IndexError` inside the sCRP
calculator, `np.argmax` on an empty array, and the `assert` statements. -/
def runStep {Obs Model : Type} (ops : ModelOps Obs Model) (minimizeMemory : Bool)
    (L : RunLoop Obs Model) (xCurr : Obs) (isFirst : Bool) :
    Option (RunLoop Obs Model × RunStepOut) :=
  match calculate_unnormed_sCRP L.st.c L.st.k L.st.alfa L.st.lmda L.st.k_prev with
  | none => none
  | some prior =>
    let active := nonzeroIdx prior
    let m := active.length
    let models1 := ensure_models ops L.st.event_models active
    let getM : ℕ → Model := fun j => (models1 j).getD ops.fresh
    match L.st.k_prev, L.st.x_prev with
    | none, _ =>
        -- `ii > 0` with `self.k_prev = None` cannot occur inside one run
        -- (`k_prev` is assigned at the end of every iteration); numpy
        -- would produce a shape anomaly there, so it is rejected here
        if isFirst then
          let lik : ℕ → ℝ := fun j =>
            if j ∈ active then ops.log_likelihood_f0 (getM j) xCurr else 0
          let post0 : List (WithBot ℝ) :=
            (List.range m).map (fun j => rlog (prior.getD j 0) + ((lik j : ℝ) : WithBot ℝ))
          if m = 0 then none
          else
            let kWin := listArgmax post0
            let eb : Bool := decide ((some kWin : Option ℕ) ≠ L.st.k_prev) ||
              (decide ((some kWin : Option ℕ) = L.st.k_prev) &&
                decide (L.repeat_prob < L.restart_prob))
            -- numpy: `_post[self.k_prev]` with `k_prev = None` inserts an
            -- axis, so `_post[None] = restart_prob` broadcasts the scalar
            -- restart value over the whole decision vector
            let decisionPost := post0.map (fun _ => L.restart_prob)
            let lbp := wsub (lseW decisionPost) (lseW (decisionPost ++ [L.repeat_prob]))
            let postRow := (List.replicate L.st.k (0 : ℝ)).set 0 1
            let llRow := (List.replicate L.st.k (⊥ : WithBot ℝ)).set 0 ((0 : ℝ) : WithBot ℝ)
            -- line 304 stores the raw concentration parameter `alfa`
            -- into `log_prior`, not its logarithm
            let lpRow := (List.replicate L.st.k (⊥ : WithBot ℝ)).set 0 ((L.st.alfa : ℝ) : WithBot ℝ)
            match runStepCommit ops L models1 xCurr kWin eb
              L.lik_restart_event L.restart_prob L.repeat_prob with
            | none => none
            | some L1 =>
                some (L1, ⟨kWin, eb, L.restart_prob, L.repeat_prob, decisionPost, lbp,
                  postRow, llRow, lpRow, 0⟩)
        else none
    | some _, none =>
        -- unreachable: `x_prev` and `k_prev` are always assigned together
        -- (lines 327-328); the likelihood loop's `assert` would fire
        none
    | some p, some xp =>
        let lik : ℕ → ℝ := fun j =>
          if j ∈ active then
            if j = p then ops.log_likelihood_next (getM j) xp xCurr
            else ops.log_likelihood_f0 (getM j) xCurr
          else 0
        -- `lik_restart_event` is only re-assigned when the previous type
        -- is active this step (the `current_event` case); otherwise the
        -- value carried from the previous iteration persists
        let likR : WithBot ℝ :=
          if p ∈ active then ((ops.log_likelihood_f0 (getM p) xCurr : ℝ) : WithBot ℝ)
          else L.lik_restart_event
        let post0 : List (WithBot ℝ) :=
          (List.range m).map (fun j => rlog (prior.getD j 0) + ((lik j : ℝ) : WithBot ℝ))
        -- lines 263-269, only for `ii > 0`: the restart/repeat merge;
        -- `prior[p] - lmda` is nonnegative in every reachable state, so
        -- `rlog` matches `np.log` there
        let restartP : WithBot ℝ :=
          if isFirst then L.restart_prob
          else likR + rlog (prior.getD p 0 - L.st.lmda)
        let repeatP : WithBot ℝ := if isFirst then L.repeat_prob else post0.getD p ⊥
        let post1 := if isFirst then post0 else post0.set p (max repeatP restartP)
        if m = 0 then none
        else
          let kWin := listArgmax post1
          let eb : Bool := decide ((some kWin : Option ℕ) ≠ L.st.k_prev) ||
            (decide ((some kWin : Option ℕ) = L.st.k_prev) && decide (repeatP < restartP))
          let decisionPost := post1.set p restartP
          let lbp := wsub (lseW decisionPost) (lseW (decisionPost ++ [repeatP]))
          -- diagnostic posterior over event labels (lines 283-300); the
          -- in-place merge `_post[p] = logsumexp([restart, repeat])` is
          -- dropped because `_post` is not read afterwards
          let prior2 := prior.set p (prior.getD p 0 - L.st.lmda / 2)
          let likW : ℕ → WithBot ℝ := fun j =>
            if j = p then lseW [((lik j : ℝ) : WithBot ℝ), likR] else ((lik j : ℝ) : WithBot ℝ)
          let pRow : List (WithBot ℝ) :=
            (List.range m).map (fun j => rlog (prior2.getD j 0) + likW j)
          let postRow : List ℝ :=
            ((List.range m).map (fun j => expv (wsub (pRow.getD j ⊥) (lseW pRow)))) ++
              List.replicate (L.st.k - m) 0
          let llRow : List (WithBot ℝ) :=
            ((List.range m).map likW) ++ List.replicate (L.st.k - m) ⊥
          let lpRow : List (WithBot ℝ) :=
            ((List.range m).map (fun j => rlog (prior2.getD j 0))) ++ List.replicate (L.st.k - m) ⊥
          let pe : ℝ :=
            if minimizeMemory ∨ isFirst then 0
            else ops.distObs xCurr (ops.predict_next (getM p) xp)
          match runStepCommit ops L models1 xCurr kWin eb likR restartP repeatP with
          | none => none
          | some L1 =>
              some (L1, ⟨kWin, eb, restartP, repeatP, decisionPost, lbp,
                postRow, llRow, lpRow, pe⟩)

/-- The per-step rows of the result arrays, in step order. -/
structure RunRows where
  post : List (List ℝ)
  pe : List ℝ
  log_like : List (List (WithBot ℝ))
  log_prior : List (List (WithBot ℝ))
  log_boundary_probability : List (WithBot ℝ)

/-- The `for ii in my_it(n)` loop of `run`. -/
def runGo {Obs Model : Type} (ops : ModelOps Obs Model) (minimizeMemory : Bool) :
    RunLoop Obs Model → List Obs → Bool → Option (RunLoop Obs Model × RunRows)
  | L, [], _ => some (L, ⟨[], [], [], [], []⟩)
  | L, x :: rest, isFirst =>
      match runStep ops minimizeMemory L x isFirst with
      | none => none
      | some (L1, out) =>
          match runGo ops minimizeMemory L1 rest false with
          | none => none
          | some (Lf, rows) =>
              some (Lf, ⟨out.postRow :: rows.post, out.pe :: rows.pe,
                out.logLikeRow :: rows.log_like, out.logPriorRow :: rows.log_prior,
                out.log_boundary_probability :: rows.log_boundary_probability⟩)

/-- Lines 330-333: Bayesian surprise.  Row-normalize
`log_like[:-1] + log_prior[:-1]` and take per-row `logsumexp` against
`log_like[1:]`, prepending the conventional `0` for step 0. -/
def computeSurprise (log_like log_prior : List (List (WithBot ℝ))) : List (WithBot ℝ) :=
  let log_post := List.zipWith (fun a b => List.zipWith (fun u v => u + v) a b)
    log_like.dropLast log_prior.dropLast
  let log_post_n := log_post.map (fun row => row.map (fun v => wsub v (lseW row)))
  ((0 : ℝ) : WithBot ℝ) ::
    List.zipWith (fun row llrow => lseW (List.zipWith (fun u v => u + v) row llrow))
      log_post_n (log_like.drop 1)

/-- The `self.results` payload of `run` (the optional `x_hat` matrix of
predicted observations is a diagnostic of the abstract observation space
and is omitted; `pe` is kept). -/
structure RunResults where
  post : List (List ℝ)
  pe : List ℝ
  surprise : List (WithBot ℝ)
  log_like : List (List (WithBot ℝ))
  log_prior : List (List (WithBot ℝ))
  e_hat : List ℕ
  log_loss : List (WithBot ℝ)
  log_boundary_probability : List (WithBot ℝ)

/-- `SEM.run(x, k, ..., minimize_memory)` over an `n × obsDim` input:
`_update_state`, the per-step loop (with the three restart locals
initialized to `-inf`, `0`, `-inf`), then the surprise / `e_hat` /
`log_loss` post-processing. -/
def SEM_run {Obs Model : Type} (ops : ModelOps Obs Model) (st : SEMState Obs Model)
    (xs : List Obs) (obsDim : ℕ) (k : Option ℕ) (minimizeMemory : Bool) :
    Option (SEMState Obs Model × RunResults) :=
  match update_state (⟨st.d, st.k, st.c⟩ : ClusterState ℝ) xs.length obsDim k with
  | .error _ => none
  | .ok cs =>
      let st1 : SEMState Obs Model :=
        ⟨st.lmda, st.alfa, cs.k, cs.c, cs.d, st.event_models, st.x_prev, st.k_prev, st.results⟩
      match runGo ops minimizeMemory ⟨st1, ⊥, ((0 : ℝ) : WithBot ℝ), ⊥⟩ xs true with
      | none => none
      | some (Lf, rows) =>
          let sums := List.zipWith (fun a b => List.zipWith (fun u v => u + v) a b)
            rows.log_like rows.log_prior
          some (Lf.st, ⟨rows.post, rows.pe, computeSurprise rows.log_like rows.log_prior,
            rows.log_like, rows.log_prior, sums.map listArgmax, sums.map lseW,
            rows.log_boundary_probability⟩)

/-! ## `SEM.update_single_event`: the token-level segmenter -/

/-- Replay of a committed span on the winning model (lines 511-515):
`update_f0` on the first scene, then `update` on every consecutive pair
of scenes, threading `x_prev`. -/
def replay_span {Obs Model : Type} (ops : ModelOps Obs Model) (mdl : Model)
    (x0 : Obs) (rest : List Obs) : Model :=
  (rest.foldl (fun pr xn => (xn, ops.update pr.2 pr.1 xn)) (x0, ops.update_f0 mdl x0)).2

/-- One scene of the token-mode inference loop (lines 434-486): ensure
every active type has a model, then append the per-scene likelihood row —
start likelihood on the first scene of the span (`event_boundary`, i.e.
`ii == 0`, i.e. no scene seen yet), sequence likelihood conditioned on
`x[:ii]` afterwards.  No model update happens here.  The
`k_within_event` / `save_x_hat` block (lines 459-473) only reads model
predictions into optional diagnostic arrays and is omitted.  As in
`runStep`, `lik[ii, k0]` positions and cluster indices coincide because
`active` is `0..m-1` in every reachable state. -/
def scene_inference {Obs Model : Type} (ops : ModelOps Obs Model) (active : List ℕ) :
    List Obs × (ℕ → Option Model) × List (List ℝ) → Obs →
      List Obs × (ℕ → Option Model) × List (List ℝ)
  | (seen, models, rows), xCurr =>
      let models1 := ensure_models ops models active
      let getM : ℕ → Model := fun j => (models1 j).getD ops.fresh
      let row : List ℝ := (List.range active.length).map (fun j =>
        if j ∈ active then
          if seen.isEmpty then ops.log_likelihood_f0 (getM j) xCurr
          else ops.log_likelihood_sequence (getM j) seen xCurr
        else 0)
      (seen ++ [xCurr], models1, rows ++ [row])

/-- Lines 369-371: `self.k += 1` followed by
`self._update_state(x, self.k)`. -/
def token_pre_state {Obs Model : Type} (st : SEMState Obs Model) (nScene obsDim : ℕ) :
    Option (SEMState Obs Model) :=
  match update_state (⟨st.d, st.k + 1, st.c⟩ : ClusterState ℝ) nScene obsDim (some (st.k + 1)) with
  | .error _ => none
  | .ok cs =>
      some ⟨st.lmda, st.alfa, cs.k, cs.c, cs.d, st.event_models, st.x_prev, st.k_prev, st.results⟩

/-- Matrix bookkeeping at the start of a token-mode update (lines
373-414): on first use create `post` / `log_like` / `log_prior` as single
zero / `-inf` rows of width `k`; otherwise widen every stored row to `k`
columns (appending zero / `-inf` entries one column at a time) and append
a fresh zero / `-inf` row.  Returns `(post, log_like, log_prior)`. -/
def token_extend (k : ℕ) :
    Option TokenResults → List (List ℝ) × List (List (WithBot ℝ)) × List (List (WithBot ℝ))
  | none => ([List.replicate k 0], [List.replicate k ⊥], [List.replicate k ⊥])
  | some r =>
      (r.post.map (fun row => row ++ List.replicate (k - row.length) 0) ++ [List.replicate k 0],
       r.log_like.map (fun row => row ++ List.replicate (k - row.length) ⊥) ++ [List.replicate k ⊥],
       r.log_prior.map (fun row => row ++ List.replicate (k - row.length) ⊥) ++ [List.replicate k ⊥])

/-- `np.sum(lik, axis=0)` at column `j`: the cumulative per-type
log-likelihood of the span. -/
def token_col_sum (rows : List (List ℝ)) (j : ℕ) : ℝ :=
  (rows.map (fun row => row.getD j 0)).sum

/-- `SEM.update_single_event(x, update)` (token mode; the `save_x_hat`
diagnostics are omitted, see `scene_inference`).  The span's cumulative
per-type log-likelihoods are computed with no model mutation, then — only
when `update` is set — the winner of
`argmax(log_prior[-1,:m] + log_like[-1,:m])` has its count incremented by
the span length, its model replayed over the span, and becomes
`self.k_prev`.  Failures (`none`): `_update_state` assert, the sCRP
`IndexError`, `np.argmax` on empty, the `self.event_models[k]` dict
lookup, and `x[0]` on an empty span. -/
def update_single_event {Obs Model : Type} (ops : ModelOps Obs Model)
    (st : SEMState Obs Model) (xs : List Obs) (obsDim : ℕ) (update : Bool) :
    Option (SEMState Obs Model) :=
  let n_scene := xs.length
  match (if update then token_pre_state st n_scene obsDim else some st) with
  | none => none
  | some st2 =>
    -- with `update = False` only fresh local `(1, self.k)` log matrices
    -- are created (lines 416-418) and `self.results` is untouched
    let mats := if update then token_extend st2.k st.results
      else ([], [List.replicate st2.k ⊥], [List.replicate st2.k ⊥])
    match calculate_unnormed_sCRP st2.c st2.k st2.alfa st2.lmda st2.k_prev with
    | none => none
    | some prior =>
      let active := nonzeroIdx prior
      let m := active.length
      let res0 := xs.foldl (scene_inference ops active) ([], st2.event_models, [])
      let models1 := res0.2.1
      let likRows := res0.2.2
      -- np.sum(lik, axis=0)
      let colSum : ℕ → ℝ := token_col_sum likRows
      -- lines 490-493 overwrite positions `:m` of the (fresh, all `-inf`)
      -- last rows of log_like / log_prior
      let llLast : List (WithBot ℝ) :=
        (List.range st2.k).map (fun j => if j < m then ((colSum j : ℝ) : WithBot ℝ) else ⊥)
      let lpLast : List (WithBot ℝ) :=
        (List.range st2.k).map (fun j => if j < m then rlog (prior.getD j 0) else ⊥)
      let log_like1 := mats.2.1.set (mats.2.1.length - 1) llLast
      let log_prior1 := mats.2.2.set (mats.2.2.length - 1) lpLast
      -- line 496 computes `bayesian_surprise`, which is never used or
      -- stored; omitted
      if update then
        -- lines 498-529: close the span
        let log_post : List (WithBot ℝ) :=
          (List.range m).map (fun j => rlog (prior.getD j 0) + ((colSum j : ℝ) : WithBot ℝ))
        if m = 0 then none
        else
          let kWin := listArgmax log_post
          let postLast : List ℝ :=
            ((List.range m).map (fun j => expv (wsub (log_post.getD j ⊥) (lseW log_post)))) ++
              List.replicate (st2.k - m) 0
          let post1 := mats.1.set (mats.1.length - 1) postLast
          let c1 := st2.c.set kWin (st2.c.getD kWin 0 + (n_scene : ℝ))
          match models1 kWin, xs with
          | some mdl, x0 :: rest =>
              let models2 : ℕ → Option Model :=
                fun j => if j = kWin then some (replay_span ops mdl x0 rest) else models1 j
              let sums := List.zipWith (fun a b => List.zipWith (fun u v => u + v) a b)
                log_like1 log_prior1
              let results1 : TokenResults :=
                ⟨post1, log_like1, log_prior1, post1.map listArgmax, sums.map lseW⟩
              some ⟨st2.lmda, st2.alfa, st2.k, c1, st2.d, models2, st2.x_prev, some kWin,
                some results1⟩
          | _, _ => none
      else
        some ⟨st2.lmda, st2.alfa, st2.k, st2.c, st2.d, models1, st2.x_prev, st2.k_prev,
          st2.results⟩

/-! ## Claims about the counts / prior layer (C2, C7, C8)

These are stated over any linearly ordered additive commutative monoid,
covering both the real-valued instantiation used by the engine and
decidable carriers for concrete evaluation. -/

theorem pad_if_spec {α : Type} [Zero α] (c : List α) (k1 : ℕ) (h : c.length ≤ k1) :
    (if c.length < k1 then c ++ List.replicate (k1 - c.length) 0 else c) =
        c ++ List.replicate (k1 - c.length) 0 := by
  by_cases hlt : c.length < k1
  · rw [if_pos hlt]
  · rw [if_neg hlt]
    have heq : c.length = k1 := le_antisymm h (Nat.le_of_not_lt hlt)
    rw [heq, Nat.sub_self, List.replicate_zero, List.append_nil]

/-- C2 counterexample: with all counts nonzero, `idx = K` still passes the
`idx <= self.k` guard and `prior[idx] += alfa` is out of bounds — numpy
raises `IndexError` rather than returning the vector.  Concretely,
`c = [1]`, `K = 1`, `alfa = 10` (nonnegative), `idx = 1 ≤ 1`, yet the
calculator fails. -/
theorem claim2_counterexample :
    ([(1 : ℚ)].length = 1 ∧ countNonzero [(1 : ℚ)] ≤ 1 ∧ (0 : ℚ) ≤ 10) ∧
      calculate_unnormed_sCRP [(1 : ℚ)] 1 10 0 none = none := by decide

/-- C2 (amended): for a counts vector `c` of length `K` and nonnegative
`alfa`, whenever `idx < K` (strictly — `idx = K` passes the source's
`idx <= K` guard but is out of bounds and fails, see the counterexample)
the calculator adds `alfa` at index `idx` of a copy of `c` and returns
that length-`K` vector without error. -/
theorem claim2_sCRP_new_cluster_in_bounds {α : Type} [LinearOrderedAddCommMonoid α]
    (c : List α) (k : ℕ) (alfa lmda : α)
    (hlen : c.length = k) (halfa : 0 ≤ alfa) (hidx : countNonzero c < k) :
    ∃ r, calculate_unnormed_sCRP c k alfa lmda none = some r ∧ r.length = k ∧
      r = c.set (countNonzero c) (c.getD (countNonzero c) 0 + alfa) := by
  have hlt : countNonzero c < c.length := hlen ▸ hidx
  have hget : c.get ⟨countNonzero c, hlt⟩ = c.getD (countNonzero c) 0 := by
    rw [List.getD_eq_getElem _ _ hlt, List.get_eq_getElem]
  refine ⟨c.set (countNonzero c) (c.getD (countNonzero c) 0 + alfa), ?_, ?_, rfl⟩
  · simp only [calculate_unnormed_sCRP]
    rw [if_pos (le_of_lt hidx), listAddAt_isSome hlt, hget]
  · rw [List.length_set, hlen]

theorem claim2_sCRP_new_cluster_in_bounds_witness :
    ∃ r, calculate_unnormed_sCRP [1, 0] 2 (5 : ℕ) 0 none = some r ∧ r.length = 2 ∧
      r = [1, 0].set (countNonzero [1, 0]) ([1, 0].getD (countNonzero [1, 0]) 0 + 5) :=
  claim2_sCRP_new_cluster_in_bounds [1, 0] 2 (5 : ℕ) 0 (by decide) (by decide) (by decide)

/-- C7: for nonnegative `alfa` and `lmda`, any counts vector and any
previous type (present or absent), whenever the sCRP calculator returns a
vector it has the same length as the counts and is elementwise at least
the counts (the prior never decreases occurrence evidence). -/
theorem claim7_sCRP_dominates_counts {α : Type} [LinearOrderedAddCommMonoid α]
    (c : List α) (k : ℕ) (alfa lmda : α) (p : Option ℕ) (r : List α)
    (halfa : 0 ≤ alfa) (hlmda : 0 ≤ lmda)
    (hr : calculate_unnormed_sCRP c k alfa lmda p = some r) :
    r.length = c.length ∧ ∀ j, c.getD j 0 ≤ r.getD j 0 := by
  simp only [calculate_unnormed_sCRP] at hr
  cases hA : (if countNonzero c ≤ k then listAddAt c (countNonzero c) alfa else some c) with
  | none => rw [hA] at hr; cases hr
  | some c1 =>
      rw [hA] at hr
      have h1 : c1.length = c.length ∧ ∀ j, c.getD j 0 ≤ c1.getD j 0 := by
        by_cases hidx : countNonzero c ≤ k
        · rw [if_pos hidx] at hA
          exact ⟨listAddAt_length hA, fun j => listAddAt_getD hA halfa j⟩
        · rw [if_neg hidx] at hA
          cases hA
          exact ⟨rfl, fun j => le_refl _⟩
      cases p with
      | none =>
          cases hr
          exact h1
      | some pp =>
          exact ⟨(listAddAt_length hr).trans h1.1,
            fun j => le_trans (h1.2 j) (listAddAt_getD hr hlmda j)⟩

theorem claim7_sCRP_dominates_counts_witness :
    ([3, 1] : List ℕ).length = ([2, 0] : List ℕ).length ∧
      ∀ j, ([2, 0] : List ℕ).getD j 0 ≤ ([3, 1] : List ℕ).getD j 0 :=
  claim7_sCRP_dominates_counts [2, 0] 2 1 1 (some 0) [3, 1]
    (by decide) (by decide) (by decide)

/-- C8: given the maintained invariant `len(self.c) == self.k`,
`_update_state` fails exactly on a dimension mismatch with the previously
fixed `d` (in particular the first call, `d = None`, never fails); on
success it fixes `d`, sets `K = max(old K, k_hint or n)`, extends the
counts by appended zeros with the existing prefix unchanged, never
shrinks them, and restores `len(c) = K`. -/
theorem claim8_update_state_spec {α : Type} [LinearOrderedAddCommMonoid α]
    (s : ClusterState α) (n dObs : ℕ) (kHint : Option ℕ) (hinv : s.c.length = s.k) :
    ((∃ e, update_state s n dObs kHint = .error e) ↔ (∃ d0, s.d = some d0 ∧ d0 ≠ dObs)) ∧
      (∀ e, update_state s n dObs kHint = .error e → e = .dimensionMismatch) ∧
      (∀ s', update_state s n dObs kHint = .ok s' →
        s'.d = some dObs ∧ s'.k = max s.k (kHint.getD n) ∧
        s'.c = s.c ++ List.replicate (s'.k - s.c.length) 0 ∧
        s'.c.length = s'.k ∧ s.c.length ≤ s'.c.length) := by
  obtain ⟨sd, sk, sc⟩ := s
  dsimp only at hinv ⊢
  have hle : sc.length ≤ max sk (kHint.getD n) := hinv ▸ le_max_left _ _
  have hlen2 : (sc ++ List.replicate (max sk (kHint.getD n) - sc.length) 0).length
      = max sk (kHint.getD n) := by
    rw [List.length_append, List.length_replicate]
    omega
  cases sd with
  | none =>
      have hres : update_state (⟨none, sk, sc⟩ : ClusterState α) n dObs kHint =
          Except.ok ⟨some dObs, max sk (kHint.getD n),
            sc ++ List.replicate (max sk (kHint.getD n) - sc.length) 0⟩ := by
        simp only [update_state]
        rw [pad_if_spec sc _ hle, if_pos hlen2]
      refine ⟨?_, ?_, ?_⟩
      · constructor
        · rintro ⟨e, he⟩
          rw [hres] at he
          cases he
        · rintro ⟨d0, hd0, -⟩
          exact Option.noConfusion hd0
      · intro e he
        rw [hres] at he
        cases he
      · intro s' hs'
        rw [hres] at hs'
        cases hs'
        refine ⟨rfl, rfl, rfl, hlen2, ?_⟩
        rw [List.length_append]
        exact Nat.le_add_right _ _
  | some d0 =>
      by_cases hdd : d0 = dObs
      · have hres : update_state (⟨some d0, sk, sc⟩ : ClusterState α) n dObs kHint =
            Except.ok ⟨some dObs, max sk (kHint.getD n),
              sc ++ List.replicate (max sk (kHint.getD n) - sc.length) 0⟩ := by
          simp only [update_state]
          rw [if_pos hdd, pad_if_spec sc _ hle, if_pos hlen2]
        refine ⟨?_, ?_, ?_⟩
        · constructor
          · rintro ⟨e, he⟩
            rw [hres] at he
            cases he
          · rintro ⟨d1, hd1, hne⟩
            cases hd1
            exact absurd hdd hne
        · intro e he
          rw [hres] at he
          cases he
        · intro s' hs'
          rw [hres] at hs'
          cases hs'
          refine ⟨rfl, rfl, rfl, hlen2, ?_⟩
          rw [List.length_append]
          exact Nat.le_add_right _ _
      · have hres : update_state (⟨some d0, sk, sc⟩ : ClusterState α) n dObs kHint =
            Except.error .dimensionMismatch := by
          simp only [update_state]
          rw [if_neg hdd]
        refine ⟨?_, ?_, ?_⟩
        · constructor
          · intro _
            exact ⟨d0, rfl, hdd⟩
          · intro _
            exact ⟨.dimensionMismatch, hres⟩
        · intro e he
          rw [hres] at he
          cases he
          rfl
        · intro s' hs'
          rw [hres] at hs'
          cases hs'

theorem claim8_update_state_spec_witness :
    ((∃ e, update_state (⟨some 3, 2, [1, 0]⟩ : ClusterState ℕ) 5 3 (some 4) = .error e) ↔
      (∃ d0, (⟨some 3, 2, [1, 0]⟩ : ClusterState ℕ).d = some d0 ∧ d0 ≠ 3)) ∧
      (∀ e, update_state (⟨some 3, 2, [1, 0]⟩ : ClusterState ℕ) 5 3 (some 4) = .error e →
        e = .dimensionMismatch) ∧
      (∀ s', update_state (⟨some 3, 2, [1, 0]⟩ : ClusterState ℕ) 5 3 (some 4) = .ok s' →
        s'.d = some 3 ∧ s'.k = max 2 ((some 4 : Option ℕ).getD 5) ∧
        s'.c = [1, 0] ++ List.replicate (s'.k - ([1, 0] : List ℕ).length) 0 ∧
        s'.c.length = s'.k ∧ ([1, 0] : List ℕ).length ≤ s'.c.length) :=
  claim8_update_state_spec (⟨some 3, 2, [1, 0]⟩ : ClusterState ℕ) 5 3 (some 4) (by decide)

/-! ## Inversion of `runStep` (shared by the streaming-run claims) -/

theorem boundary_decide_iff (kp : Option ℕ) (kw : ℕ) (rp sp : WithBot ℝ) :
    ((decide ((some kw : Option ℕ) ≠ kp) ||
        (decide ((some kw : Option ℕ) = kp) && decide (rp < sp))) = true) ↔
      (kp ≠ some kw ∨ (kp = some kw ∧ rp < sp)) := by
  simp only [Bool.or_eq_true, Bool.and_eq_true, decide_eq_true_eq]
  constructor
  · rintro (hne | ⟨heq, hlt⟩)
    · exact Or.inl (fun hc => hne hc.symm)
    · exact Or.inr ⟨heq.symm, hlt⟩
  · rintro (hne | ⟨heq, hlt⟩)
    · exact Or.inl (fun hc => hne hc.symm)
    · exact Or.inr ⟨heq.symm, hlt⟩

/-- Inversion of a successful `runStep`: the stored boundary
log-probability is the `logsumexp` difference over the stored decision
vector, the boundary flag matches the decision rule, and with no previous
type the decision vector is the nonempty broadcast of the carried restart
value and the repeat value is the carried one. -/
theorem runStep_inv {Obs Model : Type} (ops : ModelOps Obs Model) (mm : Bool)
    (L : RunLoop Obs Model) (xCurr : Obs) (isFirst : Bool)
    (L' : RunLoop Obs Model) (out : RunStepOut)
    (h : runStep ops mm L xCurr isFirst = some (L', out)) :
    out.log_boundary_probability =
        wsub (lseW out.decisionPost) (lseW (out.decisionPost ++ [out.repeatP])) ∧
      (out.event_boundary = true ↔ (L.st.k_prev ≠ some out.kWin ∨
        (L.st.k_prev = some out.kWin ∧ out.repeatP < out.restartP))) ∧
      (L.st.k_prev = none →
        out.repeatP = L.repeat_prob ∧ out.decisionPost ≠ [] ∧
        (∀ v ∈ out.decisionPost, v = L.restart_prob) ∧
        out.logPriorRow = (List.replicate L.st.k (⊥ : WithBot ℝ)).set 0 ((L.st.alfa : ℝ) : WithBot ℝ) ∧
        out.logLikeRow = (List.replicate L.st.k (⊥ : WithBot ℝ)).set 0 ((0 : ℝ) : WithBot ℝ) ∧
        out.postRow = (List.replicate L.st.k (0 : ℝ)).set 0 1) := by
  simp only [runStep] at h
  split at h
  · exact Option.noConfusion h
  · next prior heqprior =>
    split at h
    · next heqk =>
      -- `k_prev = None`
      cases isFirst with
      | false => exact Option.noConfusion h
      | true =>
        rw [if_pos rfl] at h
        split at h
        · exact Option.noConfusion h
        · next hm =>
          split at h
          · exact Option.noConfusion h
          · next L1 heqc =>
            cases h
            dsimp only
            rw [heqk]
            refine ⟨rfl, boundary_decide_iff _ _ _ _, fun _ => ⟨rfl, ?_, ?_, rfl, rfl, rfl⟩⟩
            · intro hc
              rw [List.map_eq_nil_iff, List.map_eq_nil_iff, List.range_eq_nil] at hc
              exact hm hc
            · intro v hv
              rcases List.mem_map.mp hv with ⟨-, -, hveq⟩
              exact hveq.symm
    · next heqk =>
      -- `k_prev = Some p`, `x_prev = None`: rejected
      exact Option.noConfusion h
    · next p xp heqk heqx =>
      split at h
      · exact Option.noConfusion h
      · next hm =>
        split at h
        · exact Option.noConfusion h
        · next L1 heqc =>
          cases h
          dsimp only
          rw [heqk]
          exact ⟨rfl, boundary_decide_iff _ _ _ _, fun hk => Option.noConfusion hk⟩

/-- C1: in the per-step loop of the streaming segmenter, a boundary is
declared at a step iff the winning type differs from the previous type,
or they coincide and the restart posterior strictly exceeds the repeat
posterior; in particular with no previous type a boundary is always
declared. -/
theorem claim1_boundary_rule {Obs Model : Type} (ops : ModelOps Obs Model) (mm : Bool)
    (L : RunLoop Obs Model) (xCurr : Obs) (isFirst : Bool)
    (L' : RunLoop Obs Model) (out : RunStepOut)
    (h : runStep ops mm L xCurr isFirst = some (L', out)) :
    (out.event_boundary = true ↔ (L.st.k_prev ≠ some out.kWin ∨
      (L.st.k_prev = some out.kWin ∧ out.repeatP < out.restartP))) ∧
    (L.st.k_prev = none → out.event_boundary = true) := by
  obtain ⟨-, hiff, -⟩ := runStep_inv ops mm L xCurr isFirst L' out h
  refine ⟨hiff, fun hk => ?_⟩
  exact hiff.mpr (Or.inl (by rw [hk]; exact fun hc => Option.noConfusion hc))

/-! ### A concrete instance for evaluating the streaming step

Trivial observation and model spaces with constant-zero log-likelihoods,
`lmda = alfa = 1`, one cluster, fresh counts, no previous type. -/

def unitOps : ModelOps Unit Unit :=
  ⟨(), fun _ _ => 0, fun _ _ _ => 0, fun _ _ _ => 0, fun _ _ => (), fun _ _ _ => (),
    fun _ => (), fun _ _ => (), fun _ _ => 0⟩

def L0unit : RunLoop Unit Unit :=
  ⟨⟨1, 1, 1, [0], some 1, fun _ => none, none, none, none⟩, ⊥, ((0 : ℝ) : WithBot ℝ), ⊥⟩

noncomputable def out1val : RunStepOut :=
  ⟨0, true, ((0 : ℝ) : WithBot ℝ), ⊥, [((0 : ℝ) : WithBot ℝ)], ((0 : ℝ) : WithBot ℝ),
    [1], [((0 : ℝ) : WithBot ℝ)], [((1 : ℝ) : WithBot ℝ)], 0⟩

def L1unit : RunLoop Unit Unit :=
  ⟨⟨1, 1, 1, [1], some 1, fun j => if j = 0 then some () else none, some (), some 0, none⟩,
    ⊥, ((0 : ℝ) : WithBot ℝ), ⊥⟩

theorem runStep_unit_eval :
    runStep unitOps false L0unit () true = some (L1unit, out1val) := by
  have hprior : calculate_unnormed_sCRP L0unit.st.c L0unit.st.k L0unit.st.alfa L0unit.st.lmda
      L0unit.st.k_prev = some [(1 : ℝ)] := by
    norm_num [calculate_unnormed_sCRP, countNonzero, listAddAt, L0unit]
  simp only [runStep, hprior]
  norm_num [L0unit, L1unit, out1val, nonzeroIdx, ensure_models, unitOps, listArgmax, argmaxAux,
    runStepCommit, lseW, sumExp, expv, wsub, rlog, Real.log_one, Real.exp_zero,
    List.range_succ]
  have hmod : (fun j => if j = 0 then some () else if j = 0 then some () else none) =
      (fun j : ℕ => if j = 0 then (some () : Option Unit) else none) := by
    funext j
    by_cases hj : j = 0 <;> simp [hj]
  rw [hmod]
  simp

theorem claim1_boundary_rule_witness :
    (out1val.event_boundary = true ↔ (L0unit.st.k_prev ≠ some out1val.kWin ∨
      (L0unit.st.k_prev = some out1val.kWin ∧ out1val.repeatP < out1val.restartP))) ∧
    (L0unit.st.k_prev = none → out1val.event_boundary = true) :=
  claim1_boundary_rule unitOps false L0unit () true L1unit out1val runStep_unit_eval

/-! ## Decomposition of `SEM_run` (shared by the run-level claims) -/

theorem update_state_ok_inv {α : Type} [Zero α] {s : ClusterState α} {n dObs : ℕ}
    {kHint : Option ℕ} {s' : ClusterState α}
    (h : update_state s n dObs kHint = .ok s') :
    s'.d = some dObs ∧ s'.k = max s.k (kHint.getD n) ∧
      s'.c = s.c ++ List.replicate (s'.k - s.c.length) 0 ∧ s'.c.length = s'.k := by
  obtain ⟨sd, sk, sc⟩ := s
  have main :
      (if (if sc.length < max sk (kHint.getD n) then
            sc ++ List.replicate (max sk (kHint.getD n) - sc.length) 0 else sc).length =
          max sk (kHint.getD n) then
        Except.ok (⟨some dObs, max sk (kHint.getD n),
          if sc.length < max sk (kHint.getD n) then
            sc ++ List.replicate (max sk (kHint.getD n) - sc.length) 0 else sc⟩ : ClusterState α)
      else Except.error UpdateError.sizeInvariant) = Except.ok s' →
      s'.d = some dObs ∧ s'.k = max sk (kHint.getD n) ∧
        s'.c = sc ++ List.replicate (s'.k - sc.length) 0 ∧ s'.c.length = s'.k := by
    intro hif
    by_cases hguard : (if sc.length < max sk (kHint.getD n) then
        sc ++ List.replicate (max sk (kHint.getD n) - sc.length) 0 else sc).length =
        max sk (kHint.getD n)
    · rw [if_pos hguard] at hif
      cases hif
      refine ⟨rfl, rfl, ?_, hguard⟩
      by_cases hlt : sc.length < max sk (kHint.getD n)
      · rw [if_pos hlt]
      · rw [if_neg hlt]
        rw [if_neg hlt] at hguard
        dsimp only
        rw [hguard, Nat.sub_self, List.replicate_zero, List.append_nil]
    · rw [if_neg hguard] at hif
      exact Except.noConfusion hif
  cases sd with
  | none =>
      simp only [update_state] at h
      exact main h
  | some d0 =>
      simp only [update_state] at h
      by_cases hdd : d0 = dObs
      · rw [if_pos hdd] at h
        exact main h
      · rw [if_neg hdd] at h
        exact Except.noConfusion h

theorem sumExp_pos_of_coe_mem {A : List (WithBot ℝ)} {x : ℝ}
    (h : ((x : ℝ) : WithBot ℝ) ∈ A) : 0 < sumExp A := by
  induction A with
  | nil => cases h
  | cons a t ih =>
      rw [sumExp_cons]
      rcases List.mem_cons.mp h with h1 | h2
      · have ha : 0 < expv a := by
          rw [← h1, expv_coe]
          exact Real.exp_pos x
        linarith [sumExp_nonneg t]
      · linarith [ih h2, expv_nonneg a]

/-- Appending a no-support entry leaves `logsumexp` unchanged, so the
log-probability difference is exactly `0`. -/
theorem lse_extension_bot {A : List (WithBot ℝ)} (hA : 0 < sumExp A) :
    wsub (lseW A) (lseW (A ++ [⊥])) = ((0 : ℝ) : WithBot ℝ) := by
  have hB : sumExp (A ++ [⊥]) = sumExp A := by
    rw [sumExp_append]
    simp [sumExp, expv_bot]
  rw [lseW_of_pos hA, lseW_of_pos (by rw [hB]; exact hA), hB, wsub_coe_coe, sub_self]

/-- Splitting a successful `SEM_run` on a nonempty input into the state
update, the first step, and the remaining loop, together with the shape
of every result field. -/
theorem SEM_run_cons_inv {Obs Model : Type} (ops : ModelOps Obs Model)
    (st : SEMState Obs Model) (x : Obs) (rest : List Obs) (obsDim : ℕ) (kh : Option ℕ)
    (mm : Bool) (stF : SEMState Obs Model) (res : RunResults)
    (h : SEM_run ops st (x :: rest) obsDim kh mm = some (stF, res)) :
    ∃ cs L1 out Lf rows,
      update_state (⟨st.d, st.k, st.c⟩ : ClusterState ℝ) (x :: rest).length obsDim kh = .ok cs ∧
      runStep ops mm ⟨⟨st.lmda, st.alfa, cs.k, cs.c, cs.d, st.event_models, st.x_prev,
        st.k_prev, st.results⟩, ⊥, ((0 : ℝ) : WithBot ℝ), ⊥⟩ x true = some (L1, out) ∧
      runGo ops mm L1 rest false = some (Lf, rows) ∧
      res.log_boundary_probability =
        out.log_boundary_probability :: rows.log_boundary_probability ∧
      res.log_prior = out.logPriorRow :: rows.log_prior ∧
      res.log_like = out.logLikeRow :: rows.log_like ∧
      res.post = out.postRow :: rows.post ∧
      res.e_hat = (List.zipWith (fun a b => List.zipWith (fun u v => u + v) a b)
        (out.logLikeRow :: rows.log_like) (out.logPriorRow :: rows.log_prior)).map listArgmax ∧
      res.surprise =
        computeSurprise (out.logLikeRow :: rows.log_like) (out.logPriorRow :: rows.log_prior) ∧
      stF = Lf.st := by
  simp only [SEM_run] at h
  split at h
  · exact Option.noConfusion h
  · next cs heqcs =>
    split at h
    · exact Option.noConfusion h
    · next Lf rows heqgo =>
      cases h
      simp only [runGo] at heqgo
      split at heqgo
      · exact Option.noConfusion heqgo
      · next L1 out heqstep =>
        split at heqgo
        · exact Option.noConfusion heqgo
        · next Lf2 rows2 heqgo2 =>
          cases heqgo
          exact ⟨cs, L1, out, _, _, heqcs, heqstep, heqgo2,
            rfl, rfl, rfl, rfl, rfl, rfl, rfl⟩

/-- The loop invariant of `run`, holding after every completed iteration:
nonnegative parameters, counts of the maintained length `k`, entrywise
nonnegative and front-dense (nonzero exactly on an initial segment), and
the rolled-over previous type and observation, the type having a positive
count. -/
def RunInv {Obs Model : Type} (L : RunLoop Obs Model) : Prop :=
  0 ≤ L.st.alfa ∧ 0 ≤ L.st.lmda ∧ L.st.c.length = L.st.k ∧
    (∀ i, 0 ≤ L.st.c.getD i 0) ∧
    (∃ mz, ∀ i, (L.st.c.getD i 0 ≠ 0 ↔ i < mz)) ∧
    (∃ p, L.st.k_prev = some p ∧ 0 < L.st.c.getD p 0) ∧
    (∃ xp, L.st.x_prev = some xp)

theorem runStepCommit_inv {Obs Model : Type} {ops : ModelOps Obs Model}
    {L : RunLoop Obs Model} {models1 : ℕ → Option Model} {xCurr : Obs} {kWin : ℕ}
    {eb : Bool} {likR restartP repeatP : WithBot ℝ} {L1 : RunLoop Obs Model}
    (h : runStepCommit ops L models1 xCurr kWin eb likR restartP repeatP = some L1) :
    L1.st.alfa = L.st.alfa ∧ L1.st.lmda = L.st.lmda ∧ L1.st.k = L.st.k ∧
      L1.st.c = L.st.c.set kWin (L.st.c.getD kWin 0 + 1) ∧
      L1.st.k_prev = some kWin ∧ L1.st.x_prev = some xCurr := by
  simp only [runStepCommit] at h
  split at h
  · cases h
    exact ⟨rfl, rfl, rfl, rfl, rfl, rfl⟩
  · split at h
    · exact Option.noConfusion h
    · cases h
      exact ⟨rfl, rfl, rfl, rfl, rfl, rfl⟩

/-- Inversion of a successful `runStep` exposing the computed sCRP prior,
the in-bounds winning index, the committed state evolution, and (after the
first step) the previous type's entry of the stored decision vector. -/
theorem runStep_commit_inv {Obs Model : Type} (ops : ModelOps Obs Model) (mm : Bool)
    (L : RunLoop Obs Model) (xCurr : Obs) (isFirst : Bool)
    (L' : RunLoop Obs Model) (out : RunStepOut)
    (h : runStep ops mm L xCurr isFirst = some (L', out)) :
    ∃ prior,
      calculate_unnormed_sCRP L.st.c L.st.k L.st.alfa L.st.lmda L.st.k_prev = some prior ∧
      out.kWin < (nonzeroIdx prior).length ∧
      out.decisionPost.length = (nonzeroIdx prior).length ∧
      L'.st.alfa = L.st.alfa ∧ L'.st.lmda = L.st.lmda ∧ L'.st.k = L.st.k ∧
      L'.st.c = L.st.c.set out.kWin (L.st.c.getD out.kWin 0 + 1) ∧
      L'.st.k_prev = some out.kWin ∧ L'.st.x_prev = some xCurr ∧
      (∀ p, L.st.k_prev = some p → isFirst = false → p ∈ nonzeroIdx prior →
        0 < prior.getD p 0 - L.st.lmda → p < out.decisionPost.length →
        ∃ rv : ℝ, out.decisionPost.getD p ⊥ = ((rv : ℝ) : WithBot ℝ)) := by
  simp only [runStep] at h
  split at h
  · exact Option.noConfusion h
  · next prior heqprior =>
    split at h
    · next heqk =>
      cases isFirst with
      | false => exact Option.noConfusion h
      | true =>
        rw [if_pos rfl] at h
        split at h
        · exact Option.noConfusion h
        · next hm =>
          split at h
          · exact Option.noConfusion h
          · next L1 heqc =>
            cases h
            dsimp only
            obtain ⟨hca, hcl, hck, hcc, hckp, hcxp⟩ := runStepCommit_inv heqc
            refine ⟨prior, heqprior, ?_, ?_, hca, hcl, hck, hcc, hckp, hcxp, ?_⟩
            · exact listArgmax_lt_of_length_eq
                (by simp [List.length_map, List.length_range]) hm
            · simp [List.length_map, List.length_range]
            · intro p hp
              rw [heqk] at hp
              exact Option.noConfusion hp
    · next heqk =>
      exact Option.noConfusion h
    · next p xp heqk heqx =>
      split at h
      · exact Option.noConfusion h
      · next hm =>
        split at h
        · exact Option.noConfusion h
        · next L1 heqc =>
          cases h
          dsimp only
          obtain ⟨hca, hcl, hck, hcc, hckp, hcxp⟩ := runStepCommit_inv heqc
          refine ⟨prior, heqprior, ?_, ?_, hca, hcl, hck, hcc, hckp, hcxp, ?_⟩
          · refine listArgmax_lt_of_length_eq ?_ hm
            split <;> simp [List.length_set, List.length_map, List.length_range]
          · rw [List.length_set]
            split <;> simp [List.length_set, List.length_map, List.length_range]
          · intro p2 hp2 hfirst hact hpos hlt
            rw [heqk] at hp2
            cases Option.some_inj.mp hp2
            subst hfirst
            simp only [Bool.false_eq_true, if_false] at hlt ⊢
            rw [List.length_set, List.length_set] at hlt
            rw [getD_set_self _ _ _ _ (by rw [List.length_set]; exact hlt)]
            rw [if_pos hact, rlog_of_pos hpos]
            exact ⟨_, (WithBot.coe_add _ _).symm⟩

/-- Commit-level invariant restoration: incrementing the winning in-bounds
count keeps the counts nonnegative and front-dense, and the new previous
type has a positive count. -/
theorem RunInv_of_commit {Obs Model : Type} {L L' : RunLoop Obs Model} {xCurr : Obs}
    {kWin mz : ℕ}
    (halfa : 0 ≤ L.st.alfa) (hlmda : 0 ≤ L.st.lmda)
    (hlen : L.st.c.length = L.st.k)
    (hnn : ∀ i, 0 ≤ L.st.c.getD i 0)
    (hfd : ∀ i, (L.st.c.getD i 0 ≠ 0 ↔ i < mz))
    (hkwmz : kWin ≤ mz) (hmzlt : mz < L.st.c.length)
    (ha : L'.st.alfa = L.st.alfa) (hl : L'.st.lmda = L.st.lmda) (hk : L'.st.k = L.st.k)
    (hc : L'.st.c = L.st.c.set kWin (L.st.c.getD kWin 0 + 1))
    (hkp : L'.st.k_prev = some kWin) (hxp : L'.st.x_prev = some xCurr) :
    RunInv L' := by
  have hkwlt : kWin < L.st.c.length := lt_of_le_of_lt hkwmz hmzlt
  have hnewpos : 0 < L.st.c.getD kWin 0 + 1 := by
    have := hnn kWin
    linarith
  refine ⟨by rw [ha]; exact halfa, by rw [hl]; exact hlmda, ?_, ?_, ?_,
    ⟨kWin, hkp, ?_⟩, ⟨xCurr, hxp⟩⟩
  · rw [hc, hk, List.length_set]
    exact hlen
  · intro i
    rw [hc]
    by_cases hi : i = kWin
    · subst hi
      rw [getD_set_self _ _ _ _ hkwlt]
      exact le_of_lt hnewpos
    · rw [getD_set_ne _ _ _ _ _ hi]
      exact hnn i
  · by_cases hkw : kWin = mz
    · refine ⟨mz + 1, fun i => ?_⟩
      rw [hc]
      by_cases hi : i = kWin
      · subst hi
        rw [getD_set_self _ _ _ _ hkwlt]
        constructor
        · intro _
          omega
        · intro _
          exact ne_of_gt hnewpos
      · rw [getD_set_ne _ _ _ _ _ hi, hfd i]
        omega
    · refine ⟨mz, fun i => ?_⟩
      rw [hc]
      by_cases hi : i = kWin
      · subst hi
        rw [getD_set_self _ _ _ _ hkwlt]
        constructor
        · intro _
          exact lt_of_le_of_ne hkwmz hkw
        · intro _
          exact ne_of_gt hnewpos
      · rw [getD_set_ne _ _ _ _ _ hi]
        exact hfd i
  · rw [hc, getD_set_self _ _ _ _ hkwlt]
    exact hnewpos

/-- A non-first `run` step from an invariant state keeps the decision
vector supported (the previous type's entry is finite) and re-establishes
the invariant. -/
theorem runStep_keeps_inv {Obs Model : Type} (ops : ModelOps Obs Model) (mm : Bool)
    (L : RunLoop Obs Model) (xCurr : Obs) (L' : RunLoop Obs Model) (out : RunStepOut)
    (h : runStep ops mm L xCurr false = some (L', out)) (hinv : RunInv L) :
    0 < sumExp (out.decisionPost ++ [out.repeatP]) ∧ RunInv L' := by
  obtain ⟨halfa, hlmda, hlen, hnn, ⟨mz, hfd⟩, ⟨p, hkp, hppos⟩, ⟨xp0, hxp0⟩⟩ := hinv
  obtain ⟨prior, hcalc, hkwin, hdlen, hca, hcl, hck, hcc, hckp, hcxp, hdp⟩ :=
    runStep_commit_inv ops mm L xCurr false L' out h
  obtain ⟨hplen, hmzlt, hnnP, hshift, m1, hnz, hm1a, hm1b⟩ :=
    sCRP_front_dense hlen hnn hfd halfa hlmda
      (fun q hq => by rw [hkp] at hq; cases Option.some_inj.mp hq; exact hppos) hcalc
  obtain ⟨hpmz, hpsh⟩ := hshift p hkp
  have hpact : p ∈ nonzeroIdx prior := by
    rw [hnz]
    exact List.mem_range.mpr (lt_of_lt_of_le hpmz hm1a)
  have hplt : p < out.decisionPost.length := by
    rw [hdlen, hnz, List.length_range]
    exact lt_of_lt_of_le hpmz hm1a
  have hpos2 : 0 < prior.getD p 0 - L.st.lmda := by
    rw [hpsh]
    exact hppos
  obtain ⟨rv, hrv⟩ := hdp p hkp rfl hpact hpos2 hplt
  have hmem : ((rv : ℝ) : WithBot ℝ) ∈ out.decisionPost := by
    rw [List.getD_eq_getElem _ _ hplt] at hrv
    exact hrv ▸ List.getElem_mem hplt
  have hsup : 0 < sumExp (out.decisionPost ++ [out.repeatP]) := by
    rw [sumExp_append]
    have h1 := sumExp_pos_of_coe_mem hmem
    have h2 := sumExp_nonneg [out.repeatP]
    linarith
  have hkwmz : out.kWin ≤ mz := by
    rw [hnz, List.length_range] at hkwin
    omega
  exact ⟨hsup,
    RunInv_of_commit halfa hlmda hlen hnn hfd hkwmz hmzlt hca hcl hck hcc hckp hcxp⟩

/-- The first `run` step of an engine with no previous type and the
initial restart value `0`: the decision vector (the broadcast of that
value) is supported and the loop invariant is established. -/
theorem runStep_first_inv {Obs Model : Type} (ops : ModelOps Obs Model) (mm : Bool)
    (L : RunLoop Obs Model) (xCurr : Obs) (L' : RunLoop Obs Model) (out : RunStepOut)
    (h : runStep ops mm L xCurr true = some (L', out))
    (hkp : L.st.k_prev = none) (hrp : L.restart_prob = ((0 : ℝ) : WithBot ℝ))
    (halfa : 0 ≤ L.st.alfa) (hlmda : 0 ≤ L.st.lmda)
    (hlen : L.st.c.length = L.st.k)
    (hnn : ∀ i, 0 ≤ L.st.c.getD i 0)
    (hfd0 : ∃ mz, ∀ i, (L.st.c.getD i 0 ≠ 0 ↔ i < mz)) :
    0 < sumExp (out.decisionPost ++ [out.repeatP]) ∧ RunInv L' := by
  obtain ⟨mz, hfd⟩ := hfd0
  obtain ⟨-, -, hnone⟩ := runStep_inv ops mm L xCurr true L' out h
  obtain ⟨-, hdne, hall, -, -, -⟩ := hnone hkp
  have hmem : ((0 : ℝ) : WithBot ℝ) ∈ out.decisionPost := by
    cases hdpc : out.decisionPost with
    | nil => exact absurd hdpc hdne
    | cons v t =>
        have hv : v = L.restart_prob :=
          hall v (by rw [hdpc]; exact List.mem_cons_self v t)
        rw [hv, hrp]
        exact List.mem_cons_self _ _
  have hsup : 0 < sumExp (out.decisionPost ++ [out.repeatP]) := by
    rw [sumExp_append]
    have h1 := sumExp_pos_of_coe_mem hmem
    have h2 := sumExp_nonneg [out.repeatP]
    linarith
  obtain ⟨prior, hcalc, hkwin, -, hca, hcl, hck, hcc, hckp, hcxp, -⟩ :=
    runStep_commit_inv ops mm L xCurr true L' out h
  obtain ⟨hplen, hmzlt, -, -, m1, hnz, hm1a, hm1b⟩ :=
    sCRP_front_dense hlen hnn hfd halfa hlmda
      (fun q hq => by rw [hkp] at hq; exact Option.noConfusion hq) hcalc
  have hkwmz : out.kWin ≤ mz := by
    rw [hnz, List.length_range] at hkwin
    omega
  exact ⟨hsup,
    RunInv_of_commit halfa hlmda hlen hnn hfd hkwmz hmzlt hca hcl hck hcc hckp hcxp⟩

/-- Along the tail of the `run` loop, from an invariant state every stored
log boundary probability transforms into a genuine probability. -/
theorem runGo_lbp_bounds {Obs Model : Type} (ops : ModelOps Obs Model) (mm : Bool) :
    ∀ (xs : List Obs) (L Lf : RunLoop Obs Model) (rows : RunRows),
      runGo ops mm L xs false = some (Lf, rows) → RunInv L →
      ∀ v ∈ rows.log_boundary_probability, 0 ≤ expv v ∧ expv v ≤ 1 := by
  intro xs
  induction xs with
  | nil =>
      intro L Lf rows h hinv v hv
      simp only [runGo] at h
      cases h
      exact absurd hv (List.not_mem_nil v)
  | cons x rest ih =>
      intro L Lf rows h hinv v hv
      simp only [runGo] at h
      split at h
      · exact Option.noConfusion h
      · next L1 out heqstep =>
        split at h
        · exact Option.noConfusion h
        · next Lf2 rows2 heqgo =>
          cases h
          obtain ⟨hsup, hinv1⟩ := runStep_keeps_inv ops mm L x L1 out heqstep hinv
          dsimp only at hv
          rcases List.mem_cons.mp hv with hv1 | hv2
          · obtain ⟨hlbp, -, -⟩ := runStep_inv ops mm L x false L1 out heqstep
            rw [hv1, hlbp]
            exact lse_ratio_bounds _ _ hsup
          · exact ih L1 _ rows2 heqgo hinv1 v hv2

/-- C9: on the first observation of a streaming run with no previous
type, the emitted log boundary probability is exactly `0` (the restart
value, initialized to `0`, is broadcast over the whole decision vector
while the repeat value is `-inf`), i.e. the boundary probability out of
log domain is exactly `1`. -/
theorem claim9_first_step_boundary_prob_one {Obs Model : Type} (ops : ModelOps Obs Model)
    (st : SEMState Obs Model) (xs : List Obs) (obsDim : ℕ) (kh : Option ℕ) (mm : Bool)
    (stF : SEMState Obs Model) (res : RunResults)
    (h : SEM_run ops st xs obsDim kh mm = some (stF, res))
    (hk : st.k_prev = none) (hne : xs ≠ []) :
    res.log_boundary_probability.head? = some ((0 : ℝ) : WithBot ℝ) ∧
      expv ((0 : ℝ) : WithBot ℝ) = 1 := by
  obtain ⟨x, rest, rfl⟩ := List.exists_cons_of_ne_nil hne
  obtain ⟨cs, L1, out, Lf, rows, -, hstep, -, hlbp, -, -, -, -, -, -⟩ :=
    SEM_run_cons_inv ops st x rest obsDim kh mm stF res h
  obtain ⟨hfor, -, hnone⟩ := runStep_inv _ _ _ _ _ _ _ hstep
  obtain ⟨hrep, hdne, hall, -, -, -⟩ := hnone hk
  have hmem : ((0 : ℝ) : WithBot ℝ) ∈ out.decisionPost := by
    cases hdp : out.decisionPost with
    | nil => exact absurd hdp hdne
    | cons v t =>
        have hv : v = ((0 : ℝ) : WithBot ℝ) :=
          hall v (by rw [hdp]; exact List.mem_cons_self v t)
        rw [hv]
        exact List.mem_cons_self _ _
  have hpos : 0 < sumExp out.decisionPost := sumExp_pos_of_coe_mem hmem
  rw [hlbp]
  refine ⟨?_, by rw [expv_coe]; exact Real.exp_zero⟩
  rw [List.head?_cons, hfor, hrep]
  rw [lse_extension_bot hpos]

/-- C10: on the first observation with no previous type, the stored
log-prior row holds the raw concentration parameter `alfa` at type `0`
(not its logarithm), the stored log-likelihood entry is `0`, the
posterior row is `[1, 0, ..., 0]`, and `e_hat[0]` is computed by `argmax`
directly from these raw stored rows. -/
theorem claim10_first_step_raw_rows {Obs Model : Type} (ops : ModelOps Obs Model)
    (st : SEMState Obs Model) (xs : List Obs) (obsDim : ℕ) (kh : Option ℕ) (mm : Bool)
    (stF : SEMState Obs Model) (res : RunResults)
    (h : SEM_run ops st xs obsDim kh mm = some (stF, res))
    (hk : st.k_prev = none) (hne : xs ≠ []) :
    res.log_prior.head? = some ((List.replicate (max st.k (kh.getD xs.length))
        (⊥ : WithBot ℝ)).set 0 ((st.alfa : ℝ) : WithBot ℝ)) ∧
      res.log_like.head? = some ((List.replicate (max st.k (kh.getD xs.length))
        (⊥ : WithBot ℝ)).set 0 ((0 : ℝ) : WithBot ℝ)) ∧
      res.post.head? = some ((List.replicate (max st.k (kh.getD xs.length)) (0 : ℝ)).set 0 1) ∧
      res.e_hat.head? = some (listArgmax (List.zipWith (fun u v => u + v)
        ((List.replicate (max st.k (kh.getD xs.length)) (⊥ : WithBot ℝ)).set 0
          ((0 : ℝ) : WithBot ℝ))
        ((List.replicate (max st.k (kh.getD xs.length)) (⊥ : WithBot ℝ)).set 0
          ((st.alfa : ℝ) : WithBot ℝ)))) := by
  obtain ⟨x, rest, rfl⟩ := List.exists_cons_of_ne_nil hne
  obtain ⟨cs, L1, out, Lf, rows, hcs, hstep, -, -, hlp, hll, hpost, hehat, -, -⟩ :=
    SEM_run_cons_inv ops st x rest obsDim kh mm stF res h
  obtain ⟨-, -, hnone⟩ := runStep_inv _ _ _ _ _ _ _ hstep
  obtain ⟨-, -, -, hlpRow, hllRow, hpostRow⟩ := hnone hk
  obtain ⟨-, hkk, -, -⟩ := update_state_ok_inv hcs
  have hkk' : cs.k = max st.k (kh.getD (x :: rest).length) := hkk
  rw [hlp, hll, hpost, hehat]
  rw [List.head?_cons, List.head?_cons, List.head?_cons, hlpRow, hllRow, hpostRow]
  dsimp only at hkk' ⊢
  rw [hkk']
  refine ⟨rfl, rfl, rfl, ?_⟩
  simp only [List.zipWith_cons_cons, List.map_cons, List.head?_cons, hllRow, hlpRow, hkk']

/-! ### A concrete streaming run (one observation, fresh engine) -/

def stInit : SEMState Unit Unit := ⟨1, 1, 0, [], none, fun _ => none, none, none, none⟩

noncomputable def runResVal : RunResults :=
  ⟨[[1]], [0], [((0 : ℝ) : WithBot ℝ)], [[((0 : ℝ) : WithBot ℝ)]], [[((1 : ℝ) : WithBot ℝ)]],
    [0], [((1 : ℝ) : WithBot ℝ)], [((0 : ℝ) : WithBot ℝ)]⟩

theorem SEM_run_unit_eval :
    SEM_run unitOps stInit [()] 1 none false = some (L1unit.st, runResVal) := by
  have hus : update_state (⟨none, 0, []⟩ : ClusterState ℝ) 1 1 none =
      .ok ⟨some 1, 1, [0]⟩ := by
    norm_num [update_state, List.replicate_one]
  have hgo : runGo unitOps false L0unit [()] true =
      some (L1unit, ⟨[[1]], [0], [[((0 : ℝ) : WithBot ℝ)]], [[((1 : ℝ) : WithBot ℝ)]],
        [((0 : ℝ) : WithBot ℝ)]⟩) := by
    simp only [runGo, runStep_unit_eval, out1val]
  have hll1 : lseW [(1 : WithBot ℝ)] = (1 : WithBot ℝ) := by
    rw [← WithBot.coe_one]
    have hp : 0 < sumExp [((1 : ℝ) : WithBot ℝ)] := by
      rw [sumExp_cons, sumExp_nil, expv_coe, add_zero]
      exact Real.exp_pos 1
    rw [lseW_of_pos hp, sumExp_cons, sumExp_nil, expv_coe, add_zero, Real.log_exp]
  simp only [SEM_run, stInit, List.length_singleton, hus]
  rw [show runGo unitOps false
      ⟨⟨1, 1, 1, [0], some 1, fun _ => none, none, none, none⟩, ⊥, ((0 : ℝ) : WithBot ℝ), ⊥⟩
      [()] true =
    some (L1unit, ⟨[[1]], [0], [[((0 : ℝ) : WithBot ℝ)]], [[((1 : ℝ) : WithBot ℝ)]],
      [((0 : ℝ) : WithBot ℝ)]⟩) from hgo]
  simp only [runResVal, computeSurprise, List.dropLast_single, List.zipWith_nil_right,
    List.zipWith_cons_cons, List.zipWith_nil_left, List.map_nil, List.map_cons, List.drop_one,
    List.tail_cons, ← WithBot.coe_add, listArgmax, argmaxAux, hll1]
  norm_num [listArgmax, argmaxAux, hll1]

theorem claim9_first_step_boundary_prob_one_witness :
    runResVal.log_boundary_probability.head? = some ((0 : ℝ) : WithBot ℝ) ∧
      expv ((0 : ℝ) : WithBot ℝ) = 1 :=
  claim9_first_step_boundary_prob_one unitOps stInit [()] 1 none false L1unit.st runResVal
    SEM_run_unit_eval rfl (by decide)

theorem claim10_first_step_raw_rows_witness :
    runResVal.log_prior.head? = some ((List.replicate (max stInit.k
        ((none : Option ℕ).getD [()].length)) (⊥ : WithBot ℝ)).set 0
        ((stInit.alfa : ℝ) : WithBot ℝ)) ∧
      runResVal.log_like.head? = some ((List.replicate (max stInit.k
        ((none : Option ℕ).getD [()].length)) (⊥ : WithBot ℝ)).set 0 ((0 : ℝ) : WithBot ℝ)) ∧
      runResVal.post.head? = some ((List.replicate (max stInit.k
        ((none : Option ℕ).getD [()].length)) (0 : ℝ)).set 0 1) ∧
      runResVal.e_hat.head? = some (listArgmax (List.zipWith (fun u v => u + v)
        ((List.replicate (max stInit.k ((none : Option ℕ).getD [()].length))
          (⊥ : WithBot ℝ)).set 0 ((0 : ℝ) : WithBot ℝ))
        ((List.replicate (max stInit.k ((none : Option ℕ).getD [()].length))
          (⊥ : WithBot ℝ)).set 0 ((stInit.alfa : ℝ) : WithBot ℝ)))) :=
  claim10_first_step_raw_rows unitOps stInit [()] 1 none false L1unit.st runResVal
    SEM_run_unit_eval rfl (by decide)

/-- C6: over an entire streaming run started with no previous type,
nonnegative `alfa` and `lmda`, and nonnegative front-dense counts (all
fresh engines satisfy this, as does any state a previous run left
behind), every stored log boundary probability, transformed out of log
domain, lies in the closed interval `[0, 1]`: the decision vector of
every step retains support, so the `logsumexp` ratio is a probability. -/
theorem claim6_boundary_prob_unit_interval {Obs Model : Type} (ops : ModelOps Obs Model)
    (st : SEMState Obs Model) (xs : List Obs) (obsDim : ℕ) (kh : Option ℕ) (mm : Bool)
    (stF : SEMState Obs Model) (res : RunResults)
    (h : SEM_run ops st xs obsDim kh mm = some (stF, res))
    (hkp : st.k_prev = none)
    (halfa : 0 ≤ st.alfa) (hlmda : 0 ≤ st.lmda)
    (hnn : ∀ i, 0 ≤ st.c.getD i 0)
    (hfd0 : ∃ mz, ∀ i, (st.c.getD i 0 ≠ 0 ↔ i < mz)) :
    ∀ v ∈ res.log_boundary_probability, 0 ≤ expv v ∧ expv v ≤ 1 := by
  cases xs with
  | nil =>
      intro v hv
      simp only [SEM_run] at h
      split at h
      · exact Option.noConfusion h
      · next cs heqcs =>
        split at h
        · exact Option.noConfusion h
        · next Lf rows heqgo =>
          cases h
          simp only [runGo] at heqgo
          cases heqgo
          exact absurd hv (List.not_mem_nil v)
  | cons x rest =>
      obtain ⟨cs, L1, out, Lf, rows, hcs, hstep, hgo, hlbp, -, -, -, -, -, -⟩ :=
        SEM_run_cons_inv ops st x rest obsDim kh mm stF res h
      obtain ⟨hd1, hk1, hc1, hlen1⟩ := update_state_ok_inv hcs
      obtain ⟨mz, hfd⟩ := hfd0
      obtain ⟨hsup1, hinv1⟩ := runStep_first_inv ops mm _ x L1 out hstep hkp rfl
        halfa hlmda hlen1
        (fun i => by rw [hc1, getD_append_replicate_zero]; exact hnn i)
        ⟨mz, fun i => by rw [hc1, getD_append_replicate_zero]; exact hfd i⟩
      intro v hv
      rw [hlbp] at hv
      rcases List.mem_cons.mp hv with hv1 | hv2
      · obtain ⟨hlbpf, -, -⟩ := runStep_inv ops mm _ x true L1 out hstep
        rw [hv1, hlbpf]
        exact lse_ratio_bounds _ _ hsup1
      · exact runGo_lbp_bounds ops mm rest L1 Lf rows hgo hinv1 v hv2

theorem claim6_boundary_prob_unit_interval_witness :
    0 ≤ expv ((0 : ℝ) : WithBot ℝ) ∧ expv ((0 : ℝ) : WithBot ℝ) ≤ 1 :=
  claim6_boundary_prob_unit_interval unitOps stInit [()] 1 none false L1unit.st runResVal
    SEM_run_unit_eval rfl (by norm_num [stInit]) (by norm_num [stInit])
    (fun i => le_of_eq (List.getD_eq_default stInit.c 0 (Nat.zero_le i)).symm)
    ⟨0, fun i => by rw [List.getD_eq_default stInit.c 0 (Nat.zero_le i)]; simp⟩
    ((0 : ℝ) : WithBot ℝ) (by simp [runResVal])

/-! ## C5: the Bayesian-surprise formula -/

theorem computeSurprise_get (ll lp : List (List (WithBot ℝ))) (t : ℕ) (ht1 : 1 ≤ t)
    (hbl : t - 1 < ll.length - 1) (hbp : t - 1 < lp.length - 1)
    (rowl rowp rowt : List (WithBot ℝ))
    (h1 : ll.get? (t - 1) = some rowl) (h2 : lp.get? (t - 1) = some rowp)
    (h3 : ll.get? t = some rowt) :
    (computeSurprise ll lp).get? t = some (lseW (List.zipWith (fun u v => u + v)
      ((List.zipWith (fun u v => u + v) rowl rowp).map
        (fun v => wsub v (lseW (List.zipWith (fun u v => u + v) rowl rowp)))) rowt)) := by
  obtain ⟨t', rfl⟩ : ∃ t', t = t' + 1 := ⟨t - 1, (Nat.succ_pred_eq_of_pos ht1).symm⟩
  simp only [Nat.add_sub_cancel] at h1 h2 hbl hbp
  rw [List.get?_eq_getElem?] at h1 h2 h3
  rw [List.get?_eq_getElem?]
  simp only [computeSurprise]
  rw [List.getElem?_cons_succ, List.getElem?_zipWith, List.getElem?_map,
    List.getElem?_zipWith, List.getElem?_dropLast, List.getElem?_dropLast,
    if_pos hbl, if_pos hbp, h1, h2, List.drop_one, List.getElem?_tail, h3]
  rfl

theorem runGo_lengths {Obs Model : Type} (ops : ModelOps Obs Model) (mm : Bool) :
    ∀ (xs : List Obs) (L : RunLoop Obs Model) (isFirst : Bool) (Lf : RunLoop Obs Model)
      (rows : RunRows), runGo ops mm L xs isFirst = some (Lf, rows) →
      rows.log_like.length = xs.length ∧ rows.log_prior.length = xs.length ∧
        rows.log_boundary_probability.length = xs.length ∧ rows.post.length = xs.length := by
  intro xs
  induction xs with
  | nil =>
      intro L f Lf rows h
      simp only [runGo] at h
      cases h
      exact ⟨rfl, rfl, rfl, rfl⟩
  | cons x rest ih =>
      intro L f Lf rows h
      simp only [runGo] at h
      split at h
      · exact Option.noConfusion h
      · next L1 out heqstep =>
        split at h
        · exact Option.noConfusion h
        · next Lf2 rows2 heqgo =>
          cases h
          obtain ⟨a, b, c, d⟩ := ih _ _ _ _ heqgo
          exact ⟨by simp [a], by simp [b], by simp [c], by simp [d]⟩

theorem SEM_run_surprise_inv {Obs Model : Type} (ops : ModelOps Obs Model)
    (st : SEMState Obs Model) (xs : List Obs) (obsDim : ℕ) (kh : Option ℕ) (mm : Bool)
    (stF : SEMState Obs Model) (res : RunResults)
    (h : SEM_run ops st xs obsDim kh mm = some (stF, res)) :
    res.surprise = computeSurprise res.log_like res.log_prior ∧
      res.log_like.length = xs.length ∧ res.log_prior.length = xs.length := by
  simp only [SEM_run] at h
  split at h
  · exact Option.noConfusion h
  · next cs heqcs =>
    split at h
    · exact Option.noConfusion h
    · next Lf rows heqgo =>
      cases h
      obtain ⟨a, b, -, -⟩ := runGo_lengths ops mm xs _ true Lf rows heqgo
      exact ⟨rfl, a, b⟩

/-- C5: for a streaming run over `n` observations, `surprise[0] = 0`, and
for `1 ≤ t < n` the surprise at `t` is the `logsumexp`, over types, of
the row-normalized log-posterior built from `log_like[t-1] + log_prior[t-1]`
plus `log_like[t]` (with `-inf` entries contributing no support inside
`lseW` and `wsub`). -/
theorem claim5_surprise_formula {Obs Model : Type} (ops : ModelOps Obs Model)
    (st : SEMState Obs Model) (xs : List Obs) (obsDim : ℕ) (kh : Option ℕ) (mm : Bool)
    (stF : SEMState Obs Model) (res : RunResults)
    (h : SEM_run ops st xs obsDim kh mm = some (stF, res)) :
    res.surprise.get? 0 = some ((0 : ℝ) : WithBot ℝ) ∧
      ∀ t rowl rowp rowt, 1 ≤ t → t < xs.length →
        res.log_like.get? (t - 1) = some rowl → res.log_prior.get? (t - 1) = some rowp →
        res.log_like.get? t = some rowt →
        res.surprise.get? t = some (lseW (List.zipWith (fun u v => u + v)
          ((List.zipWith (fun u v => u + v) rowl rowp).map
            (fun v => wsub v (lseW (List.zipWith (fun u v => u + v) rowl rowp)))) rowt)) := by
  obtain ⟨hs, hl1, hl2⟩ := SEM_run_surprise_inv ops st xs obsDim kh mm stF res h
  constructor
  · rw [hs]
    simp only [computeSurprise]
    rfl
  · intro t rowl rowp rowt ht1 ht2 h1 h2 h3
    rw [hs]
    exact computeSurprise_get _ _ t ht1 (by omega) (by omega) rowl rowp rowt h1 h2 h3

theorem claim5_surprise_formula_witness :
    runResVal.surprise.get? 0 = some ((0 : ℝ) : WithBot ℝ) ∧
      ∀ t rowl rowp rowt, 1 ≤ t → t < [()].length →
        runResVal.log_like.get? (t - 1) = some rowl →
        runResVal.log_prior.get? (t - 1) = some rowp →
        runResVal.log_like.get? t = some rowt →
        runResVal.surprise.get? t = some (lseW (List.zipWith (fun u v => u + v)
          ((List.zipWith (fun u v => u + v) rowl rowp).map
            (fun v => wsub v (lseW (List.zipWith (fun u v => u + v) rowl rowp)))) rowt)) :=
  claim5_surprise_formula unitOps stInit [()] 1 none false L1unit.st runResVal
    SEM_run_unit_eval

/-! ## Inversion of the token-mode update (shared by C3 and C4) -/

theorem token_pre_state_inv {Obs Model : Type} {st : SEMState Obs Model} {nScene obsDim : ℕ}
    {st2 : SEMState Obs Model} (h : token_pre_state st nScene obsDim = some st2) :
    st2.event_models = st.event_models ∧ st2.k_prev = st.k_prev ∧ st2.x_prev = st.x_prev ∧
      st2.lmda = st.lmda ∧ st2.alfa = st.alfa := by
  simp only [token_pre_state] at h
  split at h
  · exact Option.noConfusion h
  · next cs heq =>
    cases h
    exact ⟨rfl, rfl, rfl, rfl, rfl⟩

theorem ensure_models_idem {Obs Model : Type} (ops : ModelOps Obs Model)
    (models : ℕ → Option Model) (active : List ℕ) :
    ensure_models ops (ensure_models ops models active) active =
      ensure_models ops models active := by
  funext j
  by_cases hj : j ∈ active <;> simp [ensure_models, hj]

theorem scene_fold_models {Obs Model : Type} (ops : ModelOps Obs Model) (active : List ℕ) :
    ∀ (xs : List Obs) (seen : List Obs) (models : ℕ → Option Model) (rows : List (List ℝ)),
      (xs.foldl (scene_inference ops active) (seen, models, rows)).2.1 =
        if xs.isEmpty then models else ensure_models ops models active := by
  intro xs
  induction xs with
  | nil =>
      intro seen models rows
      rfl
  | cons x rest ih =>
      intro seen models rows
      rw [List.foldl_cons]
      simp only [scene_inference]
      rw [ih]
      simp only [List.isEmpty_cons, Bool.false_eq_true, if_false]
      by_cases hr : rest.isEmpty = true
      · rw [if_pos hr]
      · rw [if_neg hr, ensure_models_idem]

theorem update_single_event_true_inv {Obs Model : Type} (ops : ModelOps Obs Model)
    (st : SEMState Obs Model) (xs : List Obs) (obsDim : ℕ) (st' : SEMState Obs Model)
    (h : update_single_event ops st xs obsDim true = some st') :
    ∃ st2 prior seenF models1 likRows x0 rest mdl kWin,
      token_pre_state st xs.length obsDim = some st2 ∧
      calculate_unnormed_sCRP st2.c st2.k st2.alfa st2.lmda st2.k_prev = some prior ∧
      xs.foldl (scene_inference ops (nonzeroIdx prior)) ([], st2.event_models, []) =
        (seenF, models1, likRows) ∧
      xs = x0 :: rest ∧
      kWin = listArgmax ((List.range (nonzeroIdx prior).length).map (fun j =>
        rlog (prior.getD j 0) + ((token_col_sum likRows j : ℝ) : WithBot ℝ))) ∧
      models1 kWin = some mdl ∧
      st'.k_prev = some kWin ∧
      st'.c = st2.c.set kWin (st2.c.getD kWin 0 + (xs.length : ℝ)) ∧
      st'.event_models = (fun j => if j = kWin then some (replay_span ops mdl x0 rest)
        else models1 j) ∧
      st'.x_prev = st.x_prev := by
  cases xs with
  | nil =>
      exfalso
      simp only [update_single_event, eq_self_iff_true, if_true] at h
      split at h
      · exact Option.noConfusion h
      · next st2 heqpre =>
        split at h
        · exact Option.noConfusion h
        · next prior heqprior =>
          split at h
          · exact Option.noConfusion h
          · next hm =>
            split at h
            all_goals first
            | exact Option.noConfusion h
            | simp_all
  | cons x0 rest =>
      simp only [update_single_event, eq_self_iff_true, if_true] at h
      split at h
      · exact Option.noConfusion h
      · next st2 heqpre =>
        split at h
        · exact Option.noConfusion h
        · next prior heqprior =>
          split at h
          · exact Option.noConfusion h
          · next hm =>
            cases heqm : (List.foldl (scene_inference ops (nonzeroIdx prior))
                ([], st2.event_models, []) (x0 :: rest)).2.1
                (listArgmax (List.map (fun j => rlog (prior.getD j 0) +
                  ((token_col_sum (List.foldl (scene_inference ops (nonzeroIdx prior))
                    ([], st2.event_models, []) (x0 :: rest)).2.2 j : ℝ) : WithBot ℝ))
                  (List.range (nonzeroIdx prior).length))) with
            | none =>
                rw [heqm] at h
                exact Option.noConfusion h
            | some mdlv =>
                rw [heqm] at h
                cases h
                obtain ⟨-, -, hxp, -, -⟩ := token_pre_state_inv heqpre
                exact ⟨st2, prior, _, _, _, x0, rest, mdlv, _, heqpre, heqprior, rfl, rfl,
                  rfl, heqm, rfl, rfl, rfl, hxp⟩

/-- C3: in token mode (`update_single_event` with `update = True`) no
event model is mutated before the span-level argmax: every type other
than the committed winner leaves the registry exactly as lazy model
instantiation left it (the ensured input registry — no `update_f0` or
transition `update` is ever applied to it), and the winner's final model
is the span replay applied to its ensured, still-unmodified state, i.e.
the only update happens after the whole span's cumulative likelihoods
are in. -/
theorem claim3_token_no_update_before_commit {Obs Model : Type} (ops : ModelOps Obs Model)
    (st : SEMState Obs Model) (xs : List Obs) (obsDim : ℕ) (st' : SEMState Obs Model)
    (h : update_single_event ops st xs obsDim true = some st') :
    ∃ st2 prior, token_pre_state st xs.length obsDim = some st2 ∧
      calculate_unnormed_sCRP st2.c st2.k st2.alfa st2.lmda st2.k_prev = some prior ∧
      (∀ j, st'.k_prev ≠ some j →
        st'.event_models j = ensure_models ops st.event_models (nonzeroIdx prior) j) ∧
      (∀ kWin mdl, st'.k_prev = some kWin →
        ensure_models ops st.event_models (nonzeroIdx prior) kWin = some mdl →
        ∃ x0 rest, xs = x0 :: rest ∧
          st'.event_models kWin = some (replay_span ops mdl x0 rest)) := by
  obtain ⟨st2, prior, seenF, models1, likRows, x0, rest, mdl, kWin, hpre, hprior, hfold, hxs,
    hkdef, hmdl, hkprev, hc, hmodels, hxprev⟩ :=
    update_single_event_true_inv ops st xs obsDim st' h
  obtain ⟨hem, -, -, -, -⟩ := token_pre_state_inv hpre
  have hmodels1 : models1 = ensure_models ops st.event_models (nonzeroIdx prior) := by
    have hsf := scene_fold_models ops (nonzeroIdx prior) xs [] st2.event_models []
    rw [hfold] at hsf
    rw [hxs] at hsf
    simp only [List.isEmpty_cons, Bool.false_eq_true, if_false] at hsf
    rw [hem] at hsf
    exact hsf
  refine ⟨st2, prior, hpre, hprior, ?_, ?_⟩
  · intro j hj
    rw [hkprev] at hj
    have hjne : j ≠ kWin := fun hc' => hj (by rw [hc'])
    have hstep : st'.event_models j =
        if j = kWin then some (replay_span ops mdl x0 rest) else models1 j := by
      rw [hmodels]
    rw [hstep, if_neg hjne, hmodels1]
  · intro kW mdl' hkW hmdl'
    rw [hkprev] at hkW
    injection hkW with hkW
    subst hkW
    rw [← hmodels1] at hmdl'
    rw [hmdl] at hmdl'
    injection hmdl' with hmdl'
    subst hmdl'
    refine ⟨x0, rest, hxs, ?_⟩
    have hstep : st'.event_models kWin =
        if kWin = kWin then some (replay_span ops mdl x0 rest) else models1 kWin := by
      rw [hmodels]
    rw [hstep, if_pos rfl]

/-- C4: at span end in token mode the committed type is the argmax over
active types of cumulative log-likelihood plus log-prior; its count is
incremented by exactly the span length; its model is updated by a start
update on the first scene followed by transition updates on consecutive
scene pairs (`replay_span`); and it becomes the previous type for the
next span. -/
theorem claim4_token_commit {Obs Model : Type} (ops : ModelOps Obs Model)
    (st : SEMState Obs Model) (xs : List Obs) (obsDim : ℕ) (st' : SEMState Obs Model)
    (h : update_single_event ops st xs obsDim true = some st') :
    ∃ st2 prior seenF models1 likRows x0 rest mdl,
      token_pre_state st xs.length obsDim = some st2 ∧
      calculate_unnormed_sCRP st2.c st2.k st2.alfa st2.lmda st2.k_prev = some prior ∧
      xs.foldl (scene_inference ops (nonzeroIdx prior)) ([], st2.event_models, []) =
        (seenF, models1, likRows) ∧
      xs = x0 :: rest ∧
      st'.k_prev = some (listArgmax ((List.range (nonzeroIdx prior).length).map (fun j =>
        rlog (prior.getD j 0) + ((token_col_sum likRows j : ℝ) : WithBot ℝ)))) ∧
      (∀ kWin, st'.k_prev = some kWin →
        st'.c = st2.c.set kWin (st2.c.getD kWin 0 + (xs.length : ℝ)) ∧
        models1 kWin = some mdl ∧
        st'.event_models kWin = some (replay_span ops mdl x0 rest)) := by
  obtain ⟨st2, prior, seenF, models1, likRows, x0, rest, mdl, kWin, hpre, hprior, hfold, hxs,
    hkdef, hmdl, hkprev, hc, hmodels, -⟩ :=
    update_single_event_true_inv ops st xs obsDim st' h
  refine ⟨st2, prior, seenF, models1, likRows, x0, rest, mdl, hpre, hprior, hfold, hxs, ?_, ?_⟩
  · rw [hkprev, hkdef]
  · intro kW hkW
    rw [hkprev] at hkW
    injection hkW with hkW
    subst hkW
    refine ⟨hc, hmdl, ?_⟩
    have hstep : st'.event_models kWin =
        if kWin = kWin then some (replay_span ops mdl x0 rest) else models1 kWin := by
      rw [hmodels]
    rw [hstep, if_pos rfl]

/-! ### A concrete token-mode update (one-scene span, fresh engine) -/

noncomputable def tokResVal : TokenResults :=
  ⟨[[1]], [[((0 : ℝ) : WithBot ℝ)]], [[((0 : ℝ) : WithBot ℝ)]], [0], [((0 : ℝ) : WithBot ℝ)]⟩

noncomputable def stTokFinal : SEMState Unit Unit :=
  ⟨1, 1, 1, [1], some 1, fun j => if j = 0 then some () else none, none, some 0, some tokResVal⟩

theorem update_single_event_unit_eval :
    update_single_event unitOps stInit [()] 1 true = some stTokFinal := by
  have hpre : token_pre_state stInit 1 1 =
      some ⟨1, 1, 1, [0], some 1, fun _ => none, none, none, none⟩ := by
    norm_num [token_pre_state, update_state, stInit, List.replicate_one]
  have hprior : calculate_unnormed_sCRP ([(0 : ℝ)]) 1 1 1 none = some [(1 : ℝ)] := by
    norm_num [calculate_unnormed_sCRP, countNonzero, listAddAt]
  simp only [update_single_event, eq_self_iff_true, if_true, List.length_singleton, hpre]
  norm_num [hprior, stInit, token_extend, nonzeroIdx, scene_inference, ensure_models, unitOps,
    token_col_sum, listArgmax, argmaxAux, replay_span, rlog, lseW, sumExp, expv, wsub,
    Real.log_one, Real.exp_zero, List.range_succ, stTokFinal, tokResVal]
  have hmod : (fun j => if j = 0 then some () else if j = 0 then some () else none) =
      (fun j : ℕ => if j = 0 then (some () : Option Unit) else none) := by
    funext j
    by_cases hj : j = 0 <;> simp [hj]
  rw [hmod]

theorem claim3_token_no_update_before_commit_witness :
    ∃ st2 prior, token_pre_state stInit [()].length 1 = some st2 ∧
      calculate_unnormed_sCRP st2.c st2.k st2.alfa st2.lmda st2.k_prev = some prior ∧
      (∀ j, stTokFinal.k_prev ≠ some j →
        stTokFinal.event_models j =
          ensure_models unitOps stInit.event_models (nonzeroIdx prior) j) ∧
      (∀ kWin mdl, stTokFinal.k_prev = some kWin →
        ensure_models unitOps stInit.event_models (nonzeroIdx prior) kWin = some mdl →
        ∃ x0 rest, [()] = x0 :: rest ∧
          stTokFinal.event_models kWin = some (replay_span unitOps mdl x0 rest)) :=
  claim3_token_no_update_before_commit unitOps stInit [()] 1 stTokFinal
    update_single_event_unit_eval

theorem claim4_token_commit_witness :
    ∃ st2 prior seenF models1 likRows x0 rest mdl,
      token_pre_state stInit [()].length 1 = some st2 ∧
      calculate_unnormed_sCRP st2.c st2.k st2.alfa st2.lmda st2.k_prev = some prior ∧
      [()].foldl (scene_inference unitOps (nonzeroIdx prior)) ([], st2.event_models, []) =
        (seenF, models1, likRows) ∧
      [()] = x0 :: rest ∧
      stTokFinal.k_prev = some (listArgmax ((List.range (nonzeroIdx prior).length).map (fun j =>
        rlog (prior.getD j 0) + ((token_col_sum likRows j : ℝ) : WithBot ℝ)))) ∧
      (∀ kWin, stTokFinal.k_prev = some kWin →
        stTokFinal.c = st2.c.set kWin (st2.c.getD kWin 0 + (([()] : List Unit).length : ℝ)) ∧
        models1 kWin = some mdl ∧
        stTokFinal.event_models kWin = some (replay_span unitOps mdl x0 rest)) :=
  claim4_token_commit unitOps stInit [()] 1 stTokFinal update_single_event_unit_eval
